import Mathlib

/-!
Verification of the numeric core of the `multivariate_calculus` repository.

The development shallowly embeds the arbitrary-precision decimal class
`BigNum` of `src/core/math/bignum.ts` (string-backed: an integer-part string
and a decimal-part string, with a `BigInt` view of the concatenation), the
literal validator used by `parseNum`, the inverse hyperbolic tangent of
`src/core/math/trigonometry/hyperbolic.ts`, and the Cayley-Dickson
hypercomplex product described by the specification (whose source file is
not part of the provided sources).

JavaScript strings are modelled as `List Char`.  JavaScript `BigInt`
division and remainder truncate toward zero, hence `Int.tdiv` / `Int.tmod`.
`String.prototype.substring` clamps negative indices to `0`, hence the
`jsTake` / `jsDrop` helpers taking an `Int` index.  `BigInt(Math.pow(10, k))`
is embedded as the exact power `10 ^ k`; this is faithful for `k ≤ 22`,
where `Math.pow(10, k)` is an exactly representable double, and the theorems
that depend on it carry the corresponding bound as a hypothesis.
-/

/-- The numeric value of a digit character, as JavaScript's `BigInt` parser
sees it: the code unit minus 48.  Faithful on `'0'`-`'9'`. -/
def dval (c : Char) : ℤ := (c.toNat : ℤ) - 48

/-- Parse a string of decimal digits into an integer, most significant digit
first.  Models `BigInt(s)` for all-digit `s` (JavaScript maps the empty
string to `0`, as the `foldl` does). -/
def parseDigits (s : List Char) : ℤ := s.foldl (fun a c => 10 * a + dval c) 0

/-- Parse an optionally signed digit string, as `BigInt(s)` does. -/
def parseBigInt (s : List Char) : ℤ :=
  match s with
  | [] => 0
  | c :: t =>
    if c = '-' then -(parseDigits t)
    else if c = '+' then parseDigits t
    else parseDigits (c :: t)

/-- Membership in the ten digit characters.  This is also exactly the
JavaScript test `x in valids` of `isInteger` in the parsing helpers: the
array `valids` has the property keys `"0"` through `"9"`, so the `in`
operator holds precisely of a single digit character. -/
def isDigitCh (c : Char) : Bool :=
  c ∈ ['0', '1', '2', '3', '4', '5', '6', '7', '8', '9']

/-- `true` iff every character is a decimal digit `'0'`-`'9'`. -/
def allDigits (s : List Char) : Bool := s.all fun c => isDigitCh c

/-- Little-endian base-10 digits of `n`, with `fuel` bounding the recursion
depth (any `fuel ≥ n` is exact). -/
def natDigitsAux : ℕ → ℕ → List ℕ
  | 0, _ => []
  | _ + 1, 0 => []
  | fuel + 1, n + 1 => (n + 1) % 10 :: natDigitsAux fuel ((n + 1) / 10)

/-- The canonical decimal-digit string of a natural number; models
`BigInt.prototype.toString` on nonnegative values (`"0"` for zero, no
leading zeroes). -/
def natToString (n : ℕ) : List Char :=
  if n = 0 then ['0']
  else ((natDigitsAux n n).map fun d => Char.ofNat (48 + d)).reverse

/-- The canonical decimal string of an integer; models
`BigInt.prototype.toString` (`'-'` prefix on negatives). -/
def intToString (n : ℤ) : List Char :=
  if n < 0 then '-' :: natToString n.natAbs else natToString n.toNat

/-- `s.substring(0, i)` for an `Int` index: JavaScript clamps negative
indices to `0` and over-long indices to the length. -/
def jsTake (i : ℤ) (s : List Char) : List Char := s.take i.toNat

/-- `s.substring(i)` for an `Int` index, with the same clamping. -/
def jsDrop (i : ℤ) (s : List Char) : List Char := s.drop i.toNat

/-- `s.split(".")` of JavaScript: split at every `'.'`, keeping empty
pieces, with `[""]` for the empty string. -/
def splitOnDot : List Char → List (List Char)
  | [] => [[]]
  | c :: t =>
    if c = '.' then [] :: splitOnDot t
    else
      match splitOnDot t with
      | [] => [[c]]
      | h :: r => (c :: h) :: r

/-- The integer-part normalization of the `BigNum` constructor: drop leading
`'0'` characters (the scan stops at the first non-`'0'`, so a leading sign
stops it), and replace an empty result by `"0"`. -/
def stripLeadingZeros (s : List Char) : List Char :=
  let t := s.dropWhile fun c => c = '0'
  if t.isEmpty then ['0'] else t

/-- The fractional-part normalization of the `BigNum` constructor: drop
trailing `'0'` characters, and replace an empty result by `"0"`. -/
def stripTrailingZeros (s : List Char) : List Char :=
  let t := (s.reverse.dropWhile fun c => c = '0').reverse
  if t.isEmpty then ['0'] else t

/-- The rounding algorithms of `RoundingMode` in `bignum.ts` (modelled on
Java's `RoundingMode`). -/
inductive RoundingMode
  | UP
  | DOWN
  | CEIL
  | FLOOR
  | HALF_UP
  | HALF_DOWN
  | HALF_EVEN
  | UNNECESSARY
deriving DecidableEq

/-- The `MathContext` type of `bignum.ts`: digits kept after the decimal
point, and the rounding algorithm. -/
structure MathContext where
  precision : ℕ
  rounding : RoundingMode
deriving DecidableEq

/-- The errors the embedded operations can raise.  `formatError` is the
constructor's "Number format exception.", `rangeError` is the native
`RangeError` JavaScript raises when `BigInt` meets a non-integral double or
a zero `BigInt` divisor, `roundingNecessary` is the "Rounding necessary"
`Error` of `BigNum.round`. -/
inductive ArithError
  | formatError
  | divisionByZero
  | indeterminateForm
  | roundingNecessary
  | rangeError
deriving DecidableEq

deriving instance DecidableEq for Except

/-- The string-backed decimal class of `bignum.ts`: the integer part and the
decimal part of the number, as stored by the constructor. -/
structure BigNum where
  integer : List Char
  decimal : List Char
deriving DecidableEq

namespace BigNum

/-- `BigNum.DEFAULT_CONTEXT`: 17 digits, `HALF_EVEN`. -/
def DEFAULT_CONTEXT : MathContext := ⟨17, RoundingMode.HALF_EVEN⟩

/-- The two-argument core of the constructor: normalize an integer-part and
a decimal-part string.  `new BigNum(s)` with `s` containing exactly one
`'.'` lands here with the two pieces. -/
def construct2 (intPart decPart : List Char) : BigNum :=
  ⟨stripLeadingZeros intPart, stripTrailingZeros decPart⟩

/-- `new BigNum(num)`: split on `'.'`; more than two parts is a format
error; a missing decimal part is `"0"`. -/
def mk' (num : List Char) : Except ArithError BigNum :=
  match splitOnDot num with
  | [i] => .ok ⟨stripLeadingZeros i, ['0']⟩
  | [i, d] => .ok (construct2 i d)
  | _ => .error .formatError

/-- `this.asBigInt`: `BigInt(this.integer + this.decimal)`. -/
def asBigInt (x : BigNum) : ℤ := parseBigInt (x.integer ++ x.decimal)

/-- `this.precision`: the number of stored fractional digits. -/
def precision (x : BigNum) : ℕ := x.decimal.length

/-- `this.sign`: `0` for the canonical zero `0.0`, `-1` when the integer
part starts with `'-'`, `1` otherwise. -/
def sign (x : BigNum) : ℤ :=
  if x.integer = ['0'] ∧ x.decimal = ['0'] then 0
  else if x.integer.head? = some '-' then -1
  else 1

/-- `this.toString()`: integer part, `'.'`, decimal part. -/
def toString (x : BigNum) : List Char := x.integer ++ '.' :: x.decimal

/-- The numeric value a `BigNum` denotes: the unscaled integer divided by
`10 ^ precision`.  (Specification-side semantics used to state the claims;
meaningful on the sign-and-digit strings the class stores.) -/
def val (x : BigNum) : ℚ := (x.asBigInt : ℚ) / 10 ^ x.precision

/-- `BigNum.prototype.add`: align the two unscaled integers by powers of
ten, add, and re-split the decimal string at `max` precision from the rear.
`BigInt(Math.pow(10, |d|))` is embedded as the exact power of ten. -/
def add (a b : BigNum) : BigNum :=
  let d : ℤ := (a.precision : ℤ) - b.precision
  let padding : ℤ := 10 ^ d.natAbs
  let sum : List Char :=
    intToString (if 0 < d then a.asBigInt + b.asBigInt * padding
      else a.asBigInt * padding + b.asBigInt)
  let prec : ℕ := max a.precision b.precision
  let i : ℤ := (sum.length : ℤ) - prec
  construct2 (jsTake i sum) (jsDrop i sum)

/-- The `switch(context.rounding)` block of `BigNum.round`: adjust the
truncated quotient `rounded` using the dropped digits `last` and the
half-way threshold `five`; `UNNECESSARY` raises when digits were dropped.
The `HALF_EVEN` parity test `abs(Number(rounded % ten)) % 2 !== 0` is
`(Int.tmod rounded 10).natAbs % 2 ≠ 0` (the remainder is below ten in
magnitude, so `Number` is exact). -/
def applyRounding (mode : RoundingMode) (rounded last five : ℤ) :
    Except ArithError ℤ :=
  match mode with
  | .UP => .ok (if 0 < last then rounded + 1
      else if last < 0 then rounded - 1 else rounded)
  | .DOWN => .ok rounded
  | .CEIL => .ok (if 0 < last then rounded + 1 else rounded)
  | .FLOOR => .ok (if last < 0 then rounded - 1 else rounded)
  | .HALF_DOWN => .ok (if five < last then rounded + 1
      else if last < -five then rounded - 1 else rounded)
  | .HALF_UP => .ok (if five ≤ last then rounded + 1
      else if last ≤ -five then rounded - 1 else rounded)
  | .HALF_EVEN => .ok (if five < last then rounded + 1
      else if last < -five then rounded - 1
      else if (Int.tmod rounded 10).natAbs % 2 ≠ 0 then
        (if last = five then rounded + 1
          else if last = -five then rounded - 1 else rounded)
      else rounded)
  | .UNNECESSARY =>
    if 0 < last ∨ last < 0 then .error .roundingNecessary else .ok rounded

/-- `BigNum.round(x, context)`: when more digits are stored than requested,
drop them by truncated division by `10 ^ diff`, adjust per the rounding
mode, and re-split the digit string `context.precision` places from the
rear; otherwise return `x` unchanged.  The two scale factors
`BigInt(Math.pow(10, diff))` and `BigInt(5 * Math.pow(10, diff - 1))` are
idealized here as exact powers of ten, which is faithful only while at
most 22 digits are dropped; `BigNum.roundF` below models the doubles the
engine actually produces, and `roundF_eq_round` proves the two agree in
that regime. -/
def round (x : BigNum) (context : MathContext) : Except ArithError BigNum :=
  if context.precision < x.precision then
    let diff : ℕ := x.precision - context.precision
    let num : ℤ := x.asBigInt
    let divider : ℤ := 10 ^ diff
    let five : ℤ := 5 * 10 ^ (diff - 1)
    match applyRounding context.rounding (num.tdiv divider)
        (num.tmod divider) five with
    | .error e => .error e
    | .ok rounded =>
      let r : List Char := intToString rounded
      let i : ℤ := (r.length : ℤ) - context.precision
      .ok (construct2 (jsTake i r) (jsDrop i r))
  else .ok x

/-- `BigNum.prototype.div`: reject a divisor whose `sign` is `0`
(`IndeterminateForm` when the dividend's `sign` is also `0`, else
`DivisionByZero`); otherwise scale the dividend by
`10 ^ (17 - this.precision + that.precision)` and divide the unscaled
integers with `BigInt` division (truncation toward zero), left-padding the
quotient string with zeroes up to 17 characters and splitting 17 places
from the rear.  A negative scale exponent or a divisor whose digits are all
zero despite a nonzero `sign` hits native JavaScript errors, embedded as
`rangeError`. -/
def div (a b : BigNum) : Except ArithError BigNum :=
  if b.sign = 0 then
    if a.sign = 0 then .error .indeterminateForm else .error .divisionByZero
  else
    let p : ℕ := DEFAULT_CONTEXT.precision
    let raise : ℤ := (p : ℤ) - a.precision + b.precision
    if raise < 0 then .error .rangeError
    else if b.asBigInt = 0 then .error .rangeError
    else
      let quo0 : List Char := intToString ((a.asBigInt * 10 ^ raise.toNat).tdiv b.asBigInt)
      let quo : List Char :=
        if p > quo0.length then List.replicate (p - quo0.length) '0' ++ quo0 else quo0
      let i : ℤ := (quo.length : ℤ) - p
      .ok (construct2 (jsTake i quo) (jsDrop i quo))

end BigNum

/-! ### Lemmas about digit parsing and printing -/

theorem parseDigits_nil : parseDigits [] = 0 := rfl

theorem parseDigits_from (a : ℤ) (s : List Char) :
    s.foldl (fun a c => 10 * a + dval c) a =
      a * 10 ^ s.length + parseDigits s := by
  induction s generalizing a with
  | nil => simp [parseDigits]
  | cons c t ih =>
    simp only [List.foldl_cons, parseDigits, List.length_cons]
    rw [ih (10 * a + dval c), ih (10 * 0 + dval c)]
    ring

theorem parseDigits_cons (c : Char) (t : List Char) :
    parseDigits (c :: t) = dval c * 10 ^ t.length + parseDigits t := by
  simpa [parseDigits] using parseDigits_from (10 * 0 + dval c) t

theorem parseDigits_append (a b : List Char) :
    parseDigits (a ++ b) = parseDigits a * 10 ^ b.length + parseDigits b := by
  simpa [parseDigits, List.foldl_append] using parseDigits_from (parseDigits a) b

theorem parseDigits_cons_zero (t : List Char) :
    parseDigits ('0' :: t) = parseDigits t := by
  rw [parseDigits_cons]
  have h0 : dval '0' = 0 := by decide
  rw [h0]
  ring

theorem parseDigits_replicate_zero (k : ℕ) :
    parseDigits (List.replicate k '0') = 0 := by
  induction k with
  | zero => rfl
  | succ n ih => rw [List.replicate_succ, parseDigits_cons_zero, ih]

theorem parseDigits_replicate_zero_append (k : ℕ) (s : List Char) :
    parseDigits (List.replicate k '0' ++ s) = parseDigits s := by
  rw [parseDigits_append, parseDigits_replicate_zero]; ring

theorem parseDigits_append_replicate_zero (s : List Char) (k : ℕ) :
    parseDigits (s ++ List.replicate k '0') = parseDigits s * 10 ^ k := by
  rw [parseDigits_append, parseDigits_replicate_zero, List.length_replicate]; ring

theorem dval_cases_of_digit {c : Char} (h : isDigitCh c = true) :
    0 ≤ dval c ∧ dval c < 10 := by
  simp only [isDigitCh, List.mem_cons, List.not_mem_nil, or_false,
    decide_eq_true_eq] at h
  rcases h with h | h | h | h | h | h | h | h | h | h <;> subst h <;> decide

theorem dval_nonneg_of_digit {c : Char} (h : isDigitCh c = true) : 0 ≤ dval c :=
  (dval_cases_of_digit h).1

theorem dval_lt_of_digit {c : Char} (h : isDigitCh c = true) : dval c < 10 :=
  (dval_cases_of_digit h).2

theorem parseDigits_nonneg {s : List Char} (h : allDigits s = true) :
    0 ≤ parseDigits s := by
  induction s with
  | nil => simp [parseDigits]
  | cons c t ih =>
    simp only [allDigits, List.all_cons, Bool.and_eq_true] at h
    have h1 := dval_nonneg_of_digit h.1
    have h2 : allDigits t = true := h.2
    have := ih h2
    rw [parseDigits_cons]
    positivity

theorem parseDigits_lt {s : List Char} (h : allDigits s = true) :
    parseDigits s < 10 ^ s.length := by
  induction s with
  | nil => simp [parseDigits]
  | cons c t ih =>
    simp only [allDigits, List.all_cons, Bool.and_eq_true] at h
    have h1 := dval_lt_of_digit h.1
    have h2 := ih h.2
    rw [parseDigits_cons, List.length_cons, pow_succ]
    nlinarith [pow_pos (show (0:ℤ) < 10 by norm_num) t.length]

theorem natDigitsAux_eq_digits {fuel n : ℕ} (h : n ≤ fuel) :
    natDigitsAux fuel n = Nat.digits 10 n := by
  induction fuel generalizing n with
  | zero =>
    interval_cases n
    simp [natDigitsAux]
  | succ f ih =>
    cases n with
    | zero => simp [natDigitsAux]
    | succ m =>
      rw [natDigitsAux, Nat.digits_def' (by norm_num : (1:ℕ) < 10) (Nat.succ_pos m)]
      congr 1
      exact ih (by omega)

theorem parseDigits_rev_map {ds : List ℕ} (h : ∀ d ∈ ds, d < 10) :
    parseDigits ((ds.map fun d => Char.ofNat (48 + d)).reverse) =
      Nat.ofDigits 10 ds := by
  induction ds with
  | nil => simp [parseDigits, Nat.ofDigits]
  | cons d t ih =>
    have hd : d < 10 := h d (List.mem_cons_self d t)
    have hdv : dval (Char.ofNat (48 + d)) = d := by
      interval_cases d <;> decide
    simp only [List.map_cons, List.reverse_cons]
    rw [parseDigits_append, ih fun x hx => h x (List.mem_cons_of_mem d hx)]
    have h1 : parseDigits [Char.ofNat (48 + d)] = d := by
      rw [show ([Char.ofNat (48 + d)] : List Char) = Char.ofNat (48 + d) :: [] from rfl,
        parseDigits_cons, parseDigits_nil, hdv]
      simp
    have h2 : Nat.ofDigits (10 : ℤ) (d :: t) = (d : ℤ) + 10 * Nat.ofDigits (10 : ℤ) t :=
      rfl
    rw [h1, h2]
    simp only [List.length_singleton, pow_one]
    ring

theorem parseDigits_natToString (n : ℕ) :
    parseDigits (natToString n) = n := by
  by_cases h : n = 0
  · subst h; rfl
  · rw [natToString, if_neg h, natDigitsAux_eq_digits le_rfl]
    rw [parseDigits_rev_map fun d hd => Nat.digits_lt_base (by norm_num) hd]
    rw [show ((10 : ℤ)) = ((10 : ℕ) : ℤ) from rfl, ← Nat.coe_ofDigits ℤ 10,
      Nat.ofDigits_digits]

/-! ### Lemmas about the digit strings produced by `natToString` -/

theorem allDigits_iff {s : List Char} :
    allDigits s = true ↔ ∀ c ∈ s, isDigitCh c = true := by
  simp [allDigits, List.all_eq_true]

theorem natToString_all_digits (n : ℕ) : allDigits (natToString n) = true := by
  rw [allDigits_iff]
  intro c hc
  by_cases h : n = 0
  · subst h
    simp only [natToString, if_pos rfl] at hc
    have : c = '0' := by simpa using hc
    subst this
    decide
  · rw [natToString, if_neg h, natDigitsAux_eq_digits le_rfl, List.mem_reverse,
      List.mem_map] at hc
    obtain ⟨d, hd, rfl⟩ := hc
    have : d < 10 := Nat.digits_lt_base (by norm_num) hd
    interval_cases d <;> decide

theorem natToString_ne_nil (n : ℕ) : natToString n ≠ [] := by
  by_cases h : n = 0
  · subst h; simp [natToString]
  · rw [natToString, if_neg h]
    simp only [ne_eq, List.reverse_eq_nil_iff, List.map_eq_nil_iff]
    rw [natDigitsAux_eq_digits le_rfl]
    exact Nat.digits_ne_nil_iff_ne_zero.mpr h

theorem natToString_head_ne_zero {n : ℕ} (h : n ≠ 0) :
    (natToString n).head? ≠ some '0' := by
  rw [natToString, if_neg h, natDigitsAux_eq_digits le_rfl, List.head?_reverse,
    List.getLast?_map]
  have hne : Nat.digits 10 n ≠ [] := Nat.digits_ne_nil_iff_ne_zero.mpr h
  rw [List.getLast?_eq_getLast _ hne]
  have hlast : (Nat.digits 10 n).getLast hne ≠ 0 := Nat.getLast_digit_ne_zero 10 h
  have hlt : (Nat.digits 10 n).getLast hne < 10 :=
    Nat.digits_lt_base (by norm_num) (List.getLast_mem hne)
  intro hcontra
  have hchar : Char.ofNat (48 + (Nat.digits 10 n).getLast hne) = '0' := by
    have := hcontra
    simp only [Option.map_some'] at this
    exact Option.some_injective _ this
  set d := (Nat.digits 10 n).getLast hne with hd
  clear_value d
  interval_cases d
  · exact hlast rfl
  all_goals exact absurd hchar (by decide)

theorem digit_ne_minus {c : Char} (h : isDigitCh c = true) : ¬c = '-' := by
  simp only [isDigitCh, List.mem_cons, List.not_mem_nil, or_false,
    decide_eq_true_eq] at h
  rcases h with h | h | h | h | h | h | h | h | h | h <;> subst h <;> decide

theorem digit_ne_plus {c : Char} (h : isDigitCh c = true) : ¬c = '+' := by
  simp only [isDigitCh, List.mem_cons, List.not_mem_nil, or_false,
    decide_eq_true_eq] at h
  rcases h with h | h | h | h | h | h | h | h | h | h <;> subst h <;> decide

theorem digit_ne_zero_dval {c : Char} (h : isDigitCh c = true) (h0 : c ≠ '0') :
    1 ≤ dval c := by
  simp only [isDigitCh, List.mem_cons, List.not_mem_nil, or_false,
    decide_eq_true_eq] at h
  rcases h with h | h | h | h | h | h | h | h | h | h <;> subst h <;>
    first
    | exact absurd rfl h0
    | decide

theorem parseBigInt_of_digits {s : List Char} (h : allDigits s = true) :
    parseBigInt s = parseDigits s := by
  cases s with
  | nil => rfl
  | cons c t =>
    rw [allDigits_iff] at h
    have hc := h c (List.mem_cons_self c t)
    rw [parseBigInt, if_neg (digit_ne_minus hc), if_neg (digit_ne_plus hc)]

theorem parseBigInt_intToString (m : ℤ) : parseBigInt (intToString m) = m := by
  by_cases h : m < 0
  · rw [intToString, if_pos h]
    have hstep : parseBigInt ('-' :: natToString m.natAbs) =
        -(parseDigits (natToString m.natAbs)) := by
      simp [parseBigInt]
    rw [hstep, parseDigits_natToString]
    omega
  · rw [intToString, if_neg h,
      parseBigInt_of_digits (natToString_all_digits m.toNat),
      parseDigits_natToString]
    omega

theorem parseBigInt_append_zero (s : List Char) :
    parseBigInt (s ++ ['0']) = 10 * parseBigInt s := by
  have key : ∀ t : List Char, parseDigits (t ++ ['0']) = 10 * parseDigits t := by
    intro t
    rw [parseDigits_append]
    have : parseDigits ['0'] = 0 := by decide
    rw [this]
    simp only [List.length_singleton, pow_one]
    ring
  cases s with
  | nil => simpa using key []
  | cons c t =>
    by_cases hm : c = '-'
    · subst hm
      rw [List.cons_append, parseBigInt, parseBigInt, if_pos rfl, if_pos rfl, key]
      ring
    · by_cases hp : c = '+'
      · subst hp
        rw [List.cons_append, parseBigInt, parseBigInt, if_pos rfl, if_pos rfl]
        · exact key t
      · rw [List.cons_append, parseBigInt, parseBigInt, if_neg hm, if_neg hp,
          if_neg hm, if_neg hp, ← List.cons_append, key]

/-! ### Lemmas about the constructor's normalizations -/

theorem stripLeadingZeros_eq_self {s : List Char} (hne : s ≠ [])
    (hh : s.head? ≠ some '0') : stripLeadingZeros s = s := by
  cases s with
  | nil => exact absurd rfl hne
  | cons c t =>
    have hc : ¬c = '0' := by
      intro h
      exact hh (by simp [h])
    simp [stripLeadingZeros, List.dropWhile_cons, hc]

theorem stripLeadingZeros_intToString (m : ℤ) :
    stripLeadingZeros (intToString m) = intToString m := by
  by_cases h : m < 0
  · rw [intToString, if_pos h]
    exact stripLeadingZeros_eq_self (by simp) (by simp)
  · rw [intToString, if_neg h]
    by_cases h0 : m.toNat = 0
    · rw [h0]
      rfl
    · exact stripLeadingZeros_eq_self (natToString_ne_nil _)
        (natToString_head_ne_zero h0)

theorem stripTrailingZeros_nil : stripTrailingZeros [] = ['0'] := rfl

theorem dropWhile_zero_mem {s : List Char} {c : Char}
    (h : c ∈ s.dropWhile fun x => x = '0') : c ∈ s := by
  induction s with
  | nil => simp at h
  | cons a t ih =>
    rw [List.dropWhile_cons] at h
    by_cases ha : a = '0'
    · rw [if_pos (by simp [ha])] at h
      exact List.mem_cons_of_mem _ (ih h)
    · rw [if_neg (by simp [ha])] at h
      exact h

theorem dropWhile_zero_head {s r : List Char} {c : Char}
    (h : (s.dropWhile fun x => x = '0') = c :: r) : ¬c = '0' := by
  induction s with
  | nil => simp at h
  | cons a t ih =>
    rw [List.dropWhile_cons] at h
    by_cases ha : a = '0'
    · rw [if_pos (by simp [ha])] at h
      exact ih h
    · rw [if_neg (by simp [ha])] at h
      rw [← (List.cons_eq_cons.mp h).1]
      exact ha

/-- An optionally `'-'`-signed digit string: the shape of every string the
`BigNum` operations feed to `BigInt`. -/
def signedDigits (s : List Char) : Bool :=
  allDigits s || (s.head? == some '-' && allDigits s.tail)

theorem signedDigits_of_digits {s : List Char} (h : allDigits s = true) :
    signedDigits s = true := by
  simp [signedDigits, h]

theorem signedDigits_intToString (m : ℤ) :
    signedDigits (intToString m) = true := by
  by_cases h : m < 0
  · rw [intToString, if_pos h]
    simp [signedDigits, natToString_all_digits]
  · rw [intToString, if_neg h]
    exact signedDigits_of_digits (natToString_all_digits _)

/-- Splitting the head sign off `parseBigInt` of a concatenation: the tail
string contributes with the sign of the head. -/
theorem parseBigInt_append (hi X : List Char) (hhi : signedDigits hi = true)
    (hX : allDigits X = true) :
    parseBigInt (hi ++ X) =
      parseBigInt hi * 10 ^ X.length +
        (if hi.head? = some '-' then -1 else 1) * parseDigits X := by
  cases hi with
  | nil =>
    simp only [List.nil_append, List.head?_nil]
    rw [parseBigInt_of_digits hX]
    have h0 : parseBigInt ([] : List Char) = 0 := rfl
    rw [h0, if_neg (by simp)]
    ring
  | cons c t =>
    simp only [signedDigits, Bool.or_eq_true, Bool.and_eq_true, beq_iff_eq] at hhi
    rcases hhi with hdig | ⟨hhead, htail⟩
    · have hc : isDigitCh c = true := by
        rw [allDigits_iff] at hdig
        exact hdig c (List.mem_cons_self c t)
      have hct : allDigits (c :: t ++ X) = true := by
        rw [List.cons_append]
        have : allDigits (t ++ X) = true := by
          rw [allDigits_iff] at hdig ⊢
          intro x hx
          rcases List.mem_append.mp hx with hx | hx
          · exact hdig x (List.mem_cons_of_mem _ hx)
          · exact allDigits_iff.mp hX x hx
        rw [allDigits_iff] at this ⊢
        intro x hx
        rcases List.mem_cons.mp hx with rfl | hx
        · exact hc
        · exact this x hx
      rw [parseBigInt_of_digits hct, parseBigInt_of_digits hdig,
        parseDigits_append]
      have hne : (c :: t).head? ≠ some '-' := by
        simp only [List.head?_cons, ne_eq, Option.some_inj]
        exact digit_ne_minus hc
      rw [if_neg hne]
      ring
    · have hc : c = '-' := by
        simpa using hhead
      subst hc
      have h1 : parseBigInt ('-' :: t ++ X) = -(parseDigits (t ++ X)) := by
        simp [parseBigInt]
      have h2 : parseBigInt ('-' :: t) = -(parseDigits t) := by
        simp [parseBigInt]
      rw [h1, h2, parseDigits_append,
        if_pos (by simp : ('-' :: t).head? = some '-')]
      ring

/-- The list with its trailing zeroes removed, before the `"0"` fallback. -/
def dropTrailingZeros (s : List Char) : List Char :=
  (s.reverse.dropWhile fun c => c = '0').reverse

theorem stripTrailingZeros_eq (s : List Char) :
    stripTrailingZeros s =
      if (dropTrailingZeros s).isEmpty then ['0'] else dropTrailingZeros s := rfl

theorem dropTrailingZeros_decomp (s : List Char) :
    s = dropTrailingZeros s ++
      List.replicate (s.length - (dropTrailingZeros s).length) '0' ∧
      (dropTrailingZeros s).length ≤ s.length := by
  have hsplit := List.takeWhile_append_dropWhile (fun c => decide (c = '0')) s.reverse
  have htake : s.reverse.takeWhile (fun c => decide (c = '0')) =
      List.replicate (s.reverse.takeWhile (fun c => decide (c = '0'))).length '0' := by
    apply List.eq_replicate_of_mem
    intro b hb
    have := List.mem_takeWhile_imp hb
    simpa using this
  constructor
  · have : s = (s.reverse.dropWhile fun c => c = '0').reverse ++
        (s.reverse.takeWhile fun c => c = '0').reverse := by
      conv_lhs => rw [← List.reverse_reverse s, ← hsplit]
      rw [List.reverse_append]
    rw [dropTrailingZeros]
    conv_lhs => rw [this]
    congr 1
    rw [htake, List.reverse_replicate]
    congr 1
    have hlen : (s.reverse.takeWhile fun c => c = '0').length +
        (s.reverse.dropWhile fun c => c = '0').length = s.length := by
      conv_rhs => rw [← List.length_reverse s, ← hsplit]
      rw [List.length_append]
    simp only [dropTrailingZeros, List.length_reverse]
    omega
  · simp only [dropTrailingZeros, List.length_reverse]
    have := congrArg List.length hsplit
    simp only [List.length_append, List.length_reverse] at this
    omega

theorem dropTrailingZeros_digits {s : List Char} (h : allDigits s = true) :
    allDigits (dropTrailingZeros s) = true := by
  rw [allDigits_iff] at h ⊢
  intro c hc
  rw [dropTrailingZeros, List.mem_reverse] at hc
  exact h c (List.mem_reverse.mp (dropWhile_zero_mem hc))

theorem stripTrailingZeros_digits {s : List Char} (h : allDigits s = true) :
    allDigits (stripTrailingZeros s) = true := by
  rw [stripTrailingZeros_eq]
  by_cases he : (dropTrailingZeros s).isEmpty
  · rw [if_pos he]; decide
  · rw [if_neg he]; exact dropTrailingZeros_digits h

/-- The value-preservation core: scaling by the kept length, the stripped
fractional string denotes the same fraction as the original. -/
theorem stripTrailingZeros_valQ (lo : List Char) :
    (parseDigits (stripTrailingZeros lo) : ℚ) / 10 ^ (stripTrailingZeros lo).length =
      (parseDigits lo : ℚ) / 10 ^ lo.length := by
  obtain ⟨hdecomp, hle⟩ := dropTrailingZeros_decomp lo
  set dt := dropTrailingZeros lo with hdt
  set k := lo.length - dt.length with hk
  rw [stripTrailingZeros_eq, ← hdt]
  have hlolen : lo.length = dt.length + k := by omega
  have hpd : parseDigits lo = parseDigits dt * 10 ^ k := by
    conv_lhs => rw [hdecomp]
    rw [parseDigits_append_replicate_zero]
  by_cases he : dt.isEmpty
  · have hnil : dt = [] := by simpa [List.isEmpty_iff] using he
    rw [if_pos he, hpd, hnil]
    have h1 : parseDigits ['0'] = 0 := by decide
    have h2 : parseDigits ([] : List Char) = 0 := rfl
    rw [h1, h2]
    simp
  · rw [if_neg he, hpd, hlolen]
    rw [pow_add]
    have h10 : ((10 : ℚ) ^ k) ≠ 0 := by positivity
    have h10' : ((10 : ℚ) ^ dt.length) ≠ 0 := by positivity
    push_cast
    field_simp
    ring

theorem parseBigInt_stripLeading_append (hi X : List Char)
    (hhi : signedDigits hi = true) (hX : allDigits X = true) :
    parseBigInt (stripLeadingZeros hi ++ X) = parseBigInt (hi ++ X) := by
  simp only [signedDigits, Bool.or_eq_true, Bool.and_eq_true, beq_iff_eq] at hhi
  rcases hhi with hdig | ⟨hhead, _⟩
  case inr =>
    cases hi with
    | nil => simp at hhead
    | cons c t =>
      have hc : c = '-' := by simpa using hhead
      subst hc
      rw [stripLeadingZeros_eq_self (by simp) (by simp)]
  case inl =>
    rcases hdw : hi.dropWhile (fun c => c = '0') with _ | ⟨c, r⟩
    · have hall : ∀ x ∈ hi, x = '0' := by
        intro x hx
        have := List.dropWhile_eq_nil_iff.mp hdw x hx
        simpa using this
      have hrep : hi = List.replicate hi.length '0' := List.eq_replicate_of_mem hall
      have hsl : stripLeadingZeros hi = ['0'] := by
        rw [stripLeadingZeros, hdw]
        rfl
      rw [hsl]
      have hX0 : allDigits ('0' :: X) = true := by
        rw [allDigits_iff] at hX ⊢
        intro x hx
        rcases List.mem_cons.mp hx with rfl | hx
        · decide
        · exact hX x hx
      have hXhi : allDigits (hi ++ X) = true := by
        rw [allDigits_iff] at hX ⊢
        intro x hx
        rcases List.mem_append.mp hx with hx | hx
        · rw [allDigits_iff] at hdig
          exact hdig x hx
        · exact hX x hx
      rw [show (['0'] : List Char) ++ X = '0' :: X from rfl,
        parseBigInt_of_digits hX0, parseBigInt_of_digits hXhi,
        parseDigits_cons_zero]
      conv_rhs => rw [hrep]
      rw [parseDigits_replicate_zero_append]
    · have hsl : stripLeadingZeros hi = c :: r := by
        rw [stripLeadingZeros, hdw]
        rfl
      have hsplit : hi.takeWhile (fun c => c = '0') ++ (c :: r) = hi := by
        rw [← hdw]
        exact List.takeWhile_append_dropWhile _ hi
      have htake : hi.takeWhile (fun c => c = '0') =
          List.replicate (hi.takeWhile (fun c => c = '0')).length '0' := by
        apply List.eq_replicate_of_mem
        intro b hb
        simpa using List.mem_takeWhile_imp hb
      have hcr : allDigits ((c :: r) ++ X) = true := by
        rw [allDigits_iff] at hX ⊢
        intro x hx
        rcases List.mem_append.mp hx with hx | hx
        · rw [allDigits_iff] at hdig
          refine hdig x ?_
          have : x ∈ hi.dropWhile (fun c => c = '0') := by
            rw [hdw]; exact hx
          exact dropWhile_zero_mem this
        · exact hX x hx
      rw [hsl, parseBigInt_of_digits hcr]
      conv_rhs => rw [← hsplit, htake]
      have hdigall : allDigits ((List.replicate (hi.takeWhile fun c => c = '0').length '0' ++ (c :: r)) ++ X) = true := by
        rw [allDigits_iff]
        intro x hx
        rcases List.mem_append.mp hx with hx | hx
        · rcases List.mem_append.mp hx with hx | hx
          · have := List.eq_of_mem_replicate hx
            subst this
            decide
          · rw [allDigits_iff] at hcr
            exact hcr x (List.mem_append.mpr (Or.inl hx))
        · rw [allDigits_iff] at hX
          exact hX x hx
      rw [parseBigInt_of_digits hdigall, List.append_assoc,
        parseDigits_replicate_zero_append]

theorem BigNum.val_construct2 (hi lo : List Char) (hhi : signedDigits hi = true)
    (hlo : allDigits lo = true) :
    val (construct2 hi lo) = (parseBigInt (hi ++ lo) : ℚ) / 10 ^ lo.length := by
  have hST : allDigits (stripTrailingZeros lo) = true := stripTrailingZeros_digits hlo
  have key : ∀ (P e S T : ℚ) (m l : ℕ), S / 10 ^ m = T / 10 ^ l →
      (P * 10 ^ m + e * S) / 10 ^ m = (P * 10 ^ l + e * T) / 10 ^ l := by
    intro P e S T m l h
    have hm : ((10 : ℚ) ^ m) ≠ 0 := by positivity
    have hl : ((10 : ℚ) ^ l) ≠ 0 := by positivity
    have h' := (div_eq_div_iff hm hl).mp h
    rw [div_eq_div_iff hm hl]
    linear_combination e * h' 
  show (parseBigInt (stripLeadingZeros hi ++ stripTrailingZeros lo) : ℚ) /
      10 ^ (stripTrailingZeros lo).length = _
  rw [parseBigInt_stripLeading_append hi _ hhi hST,
    parseBigInt_append hi _ hhi hST, parseBigInt_append hi lo hhi hlo]
  have e4 := stripTrailingZeros_valQ lo
  by_cases hsgn : hi.head? = some '-'
  · rw [if_pos hsgn]
    push_cast
    exact key _ _ _ _ _ _ e4
  · rw [if_neg hsgn]
    push_cast
    exact key _ _ _ _ _ _ e4

/-! ### Truncation toward zero on rationals, and `Int.tdiv` -/

/-- Truncation of a rational toward zero (the rounding `BigInt` division
performs), stated specification-side. -/
def specTrunc (q : ℚ) : ℤ := if 0 ≤ q then ⌊q⌋ else -⌊-q⌋

theorem specTrunc_neg (q : ℚ) : specTrunc (-q) = -specTrunc q := by
  rcases lt_trichotomy q 0 with h | h | h
  · rw [specTrunc, if_pos (by linarith), specTrunc, if_neg (by linarith)]
    ring_nf
  · subst h
    simp [specTrunc]
  · rw [specTrunc, if_neg (by linarith), specTrunc, if_pos (by linarith)]
    ring_nf

theorem specTrunc_natCast_div (m n : ℕ) :
    specTrunc ((m : ℚ) / n) = (m : ℤ).tdiv n := by
  have h0 : (0 : ℚ) ≤ (m : ℚ) / n := by positivity
  rw [specTrunc, if_pos h0]
  have hfloor : ⌊((m : ℤ) : ℚ) / ((n : ℕ) : ℚ)⌋ = (m : ℤ) / (n : ℤ) :=
    Rat.floor_intCast_div_natCast (m : ℤ) n
  have hcast : ((m : ℤ) : ℚ) = (m : ℚ) := by push_cast; rfl
  rw [hcast] at hfloor
  rw [hfloor]
  have htdiv : ((m : ℤ)).tdiv (n : ℤ) = ((m / n : ℕ) : ℤ) := rfl
  rw [htdiv]
  exact (Int.ofNat_tdiv m n).symm

theorem tdiv_eq_specTrunc (A B : ℤ) (hB : B ≠ 0) :
    A.tdiv B = specTrunc ((A : ℚ) / B) := by
  have hc : ∀ k : ℕ, (((k : ℤ)) : ℚ) = (k : ℚ) := fun k => by push_cast; rfl
  obtain ⟨m, hm | hm⟩ := A.eq_nat_or_neg
  · obtain ⟨n, hn | hn⟩ := B.eq_nat_or_neg
    · subst hm hn
      rw [hc m, hc n]
      exact (specTrunc_natCast_div m n).symm
    · subst hm hn
      rw [Int.tdiv_neg, Int.cast_neg, div_neg, hc m, hc n, specTrunc_neg]
      exact neg_inj.mpr (specTrunc_natCast_div m n).symm
  · obtain ⟨n, hn | hn⟩ := B.eq_nat_or_neg
    · subst hm hn
      rw [Int.neg_tdiv, Int.cast_neg, neg_div, hc m, hc n, specTrunc_neg]
      exact neg_inj.mpr (specTrunc_natCast_div m n).symm
    · subst hm hn
      rw [Int.neg_tdiv, Int.tdiv_neg, neg_neg, Int.cast_neg, Int.cast_neg,
        neg_div_neg_eq, hc m, hc n]
      exact (specTrunc_natCast_div m n).symm

/-! ### Small facts about `sign`, `asBigInt` and `val` -/

theorem BigNum.sign_eq_zero_iff (x : BigNum) :
    x.sign = 0 ↔ x.integer = ['0'] ∧ x.decimal = ['0'] := by
  rw [sign]
  by_cases h : x.integer = ['0'] ∧ x.decimal = ['0']
  · rw [if_pos h]
    simp [h]
  · rw [if_neg h]
    by_cases h2 : x.integer.head? = some '-'
    · rw [if_pos h2]
      simp [h]
    · rw [if_neg h2]
      simp [h]

theorem BigNum.asBigInt_of_sign_zero {x : BigNum} (h : x.sign = 0) :
    x.asBigInt = 0 := by
  obtain ⟨h1, h2⟩ := (BigNum.sign_eq_zero_iff x).mp h
  rw [BigNum.asBigInt, h1, h2]
  decide

theorem BigNum.val_eq_zero_iff (x : BigNum) : x.val = 0 ↔ x.asBigInt = 0 := by
  rw [BigNum.val, div_eq_zero_iff]
  have : ((10 : ℚ) ^ x.precision) ≠ 0 := by positivity
  simp [this]

theorem BigNum.val_ne_zero_of_asBigInt {x : BigNum} (h : x.asBigInt ≠ 0) :
    x.val ≠ 0 := fun hc => h ((BigNum.val_eq_zero_iff x).mp hc)

theorem BigNum.sign_ne_zero_of_val {x : BigNum} (h : x.val ≠ 0) : x.sign ≠ 0 :=
  fun hc => h ((BigNum.val_eq_zero_iff x).mpr (BigNum.asBigInt_of_sign_zero hc))

theorem BigNum.val_nonneg_of_digits {x : BigNum}
    (h1 : allDigits x.integer = true) (h2 : allDigits x.decimal = true) :
    0 ≤ x.val := by
  rw [BigNum.val]
  have hdig : allDigits (x.integer ++ x.decimal) = true := by
    rw [allDigits_iff] at h1 h2 ⊢
    intro c hc
    rcases List.mem_append.mp hc with hc | hc
    · exact h1 c hc
    · exact h2 c hc
  have := parseDigits_nonneg hdig
  rw [BigNum.asBigInt, parseBigInt_of_digits hdig]
  positivity

theorem BigNum.val_eval {x : BigNum} {n : ℤ} {p : ℕ}
    (hA : x.asBigInt = n) (hP : x.precision = p) : x.val = (n : ℚ) / 10 ^ p := by
  rw [BigNum.val, hA, hP]

/-! ### Claim C1: exactness of addition -/

/-- C1.  The claim states that `a.add(b)` is always exact.  The code
violates it: when the decimal string of the summed unscaled integers is
shorter than the result scale, the re-split index is negative,
`substring` clamps it to `0`, and high-order fractional zeroes are lost.
`new BigNum("0.03").add(new BigNum("0.04"))` yields the value `0.7`
instead of `0.07`.  This theorem evaluates the embedded code at that
failing input. -/
theorem add_drops_leading_fraction_zeros :
    BigNum.mk' "0.03".toList = .ok ⟨['0'], ['0', '3']⟩ ∧
    BigNum.mk' "0.04".toList = .ok ⟨['0'], ['0', '4']⟩ ∧
    BigNum.add ⟨['0'], ['0', '3']⟩ ⟨['0'], ['0', '4']⟩ = ⟨['0'], ['7']⟩ ∧
    BigNum.val ⟨['0'], ['7']⟩ ≠
      BigNum.val ⟨['0'], ['0', '3']⟩ + BigNum.val ⟨['0'], ['0', '4']⟩ := by
  refine ⟨by decide, by decide, by decide, ?_⟩
  rw [BigNum.val_eval (show (⟨['0'], ['7']⟩ : BigNum).asBigInt = 7 by decide)
      (show (⟨['0'], ['7']⟩ : BigNum).precision = 1 from rfl),
    BigNum.val_eval (show (⟨['0'], ['0', '3']⟩ : BigNum).asBigInt = 3 by decide)
      (show (⟨['0'], ['0', '3']⟩ : BigNum).precision = 2 from rfl),
    BigNum.val_eval (show (⟨['0'], ['0', '4']⟩ : BigNum).asBigInt = 4 by decide)
      (show (⟨['0'], ['0', '4']⟩ : BigNum).precision = 2 from rfl)]
  norm_num

/-! ### Claim C3: the rounding table for "2.5" at precision 0 -/

/-- C3.  Rounding the `BigNum` created from `"2.5"` at precision 0 per
mode: `UP`, `CEIL` and `HALF_UP` give 3; `DOWN`, `FLOOR`, `HALF_DOWN` and
`HALF_EVEN` give 2 (the tie resolves to the even digit).  The results are
the `BigNum`s that `"3"` and `"2"` construct, of values 3 and 2. -/
theorem round_table_two_point_five :
    BigNum.mk' "2.5".toList = .ok ⟨['2'], ['5']⟩ ∧
    BigNum.round ⟨['2'], ['5']⟩ ⟨0, .UP⟩ = .ok ⟨['3'], ['0']⟩ ∧
    BigNum.round ⟨['2'], ['5']⟩ ⟨0, .DOWN⟩ = .ok ⟨['2'], ['0']⟩ ∧
    BigNum.round ⟨['2'], ['5']⟩ ⟨0, .CEIL⟩ = .ok ⟨['3'], ['0']⟩ ∧
    BigNum.round ⟨['2'], ['5']⟩ ⟨0, .FLOOR⟩ = .ok ⟨['2'], ['0']⟩ ∧
    BigNum.round ⟨['2'], ['5']⟩ ⟨0, .HALF_UP⟩ = .ok ⟨['3'], ['0']⟩ ∧
    BigNum.round ⟨['2'], ['5']⟩ ⟨0, .HALF_DOWN⟩ = .ok ⟨['2'], ['0']⟩ ∧
    BigNum.round ⟨['2'], ['5']⟩ ⟨0, .HALF_EVEN⟩ = .ok ⟨['2'], ['0']⟩ ∧
    BigNum.mk' "3".toList = .ok ⟨['3'], ['0']⟩ ∧
    BigNum.mk' "2".toList = .ok ⟨['2'], ['0']⟩ ∧
    BigNum.val ⟨['3'], ['0']⟩ = 3 ∧ BigNum.val ⟨['2'], ['0']⟩ = 2 := by
  refine ⟨by decide, by decide, by decide, by decide, by decide, by decide,
    by decide, by decide, by decide, by decide, ?_, ?_⟩
  · rw [BigNum.val_eval (show (⟨['3'], ['0']⟩ : BigNum).asBigInt = 30 by decide)
        (show (⟨['3'], ['0']⟩ : BigNum).precision = 1 from rfl)]
    norm_num
  · rw [BigNum.val_eval (show (⟨['2'], ['0']⟩ : BigNum).asBigInt = 20 by decide)
        (show (⟨['2'], ['0']⟩ : BigNum).precision = 1 from rfl)]
    norm_num

/-! ### Claim C5: division error classification -/

/-- C5 counterexample.  The claim says `a.div(b)` raises `DivisionByZero`
exactly when `b`'s value is zero and `a`'s is not.  The divisor created
from `"-0"` has value zero, but its `sign` is `-1` (the sign getter only
recognizes the canonical `0.0`), so the guard is passed and the `BigInt`
division itself raises a native `RangeError` instead. -/
theorem div_negzero_rangeError :
    BigNum.mk' "-0".toList = .ok ⟨['-', '0'], ['0']⟩ ∧
    BigNum.mk' "1".toList = .ok ⟨['1'], ['0']⟩ ∧
    BigNum.val ⟨['-', '0'], ['0']⟩ = 0 ∧
    BigNum.val ⟨['1'], ['0']⟩ ≠ 0 ∧
    BigNum.div ⟨['1'], ['0']⟩ ⟨['-', '0'], ['0']⟩ = .error .rangeError ∧
    BigNum.div ⟨['1'], ['0']⟩ ⟨['-', '0'], ['0']⟩ ≠ .error .divisionByZero := by
  refine ⟨by decide, by decide, ?_, ?_, by decide, by decide⟩
  · rw [BigNum.val_eval (show (⟨['-', '0'], ['0']⟩ : BigNum).asBigInt = 0 by decide)
        (show (⟨['-', '0'], ['0']⟩ : BigNum).precision = 1 from rfl)]
    norm_num
  · rw [BigNum.val_eval (show (⟨['1'], ['0']⟩ : BigNum).asBigInt = 10 by decide)
        (show (⟨['1'], ['0']⟩ : BigNum).precision = 1 from rfl)]
    norm_num

/-- C5 amended.  `div` raises `IndeterminateForm` exactly when both stored
signs are `0` (both operands are the canonical `0.0`), `DivisionByZero`
exactly when the divisor's stored sign is `0` and the dividend's is not,
and raises neither of the two when the divisor's value is nonzero (for the
non-canonical zero `"-0"` it instead hits a native range error). -/
theorem div_error_classification (a b : BigNum) :
    (BigNum.div a b = .error .indeterminateForm ↔ b.sign = 0 ∧ a.sign = 0) ∧
    (BigNum.div a b = .error .divisionByZero ↔ b.sign = 0 ∧ ¬a.sign = 0) ∧
    (b.val ≠ 0 →
      BigNum.div a b ≠ .error .divisionByZero ∧
        BigNum.div a b ≠ .error .indeterminateForm) := by
  by_cases hb : b.sign = 0
  · rw [BigNum.div, if_pos hb]
    by_cases ha : a.sign = 0
    · rw [if_pos ha]
      refine ⟨by simp [hb, ha], by simp [hb, ha], fun hval => ?_⟩
      exact absurd hb (BigNum.sign_ne_zero_of_val hval)
    · rw [if_neg ha]
      refine ⟨by simp [ha], by simp [hb, ha], fun hval => ?_⟩
      exact absurd hb (BigNum.sign_ne_zero_of_val hval)
  · have hshape : BigNum.div a b = .error .rangeError ∨
        ∃ r, BigNum.div a b = .ok r := by
      rw [BigNum.div, if_neg hb]
      by_cases h1 : ((BigNum.DEFAULT_CONTEXT.precision : ℤ) - a.precision + b.precision) < 0
      · rw [if_pos h1]
        exact Or.inl rfl
      · rw [if_neg h1]
        by_cases h2 : b.asBigInt = 0
        · rw [if_pos h2]
          exact Or.inl rfl
        · rw [if_neg h2]
          exact Or.inr ⟨_, rfl⟩
    have hne : BigNum.div a b ≠ .error .divisionByZero ∧
        BigNum.div a b ≠ .error .indeterminateForm := by
      rcases hshape with h | ⟨r, h⟩ <;> rw [h] <;> exact ⟨by simp, by simp⟩
    exact ⟨by simp [hne.2, hb], by simp [hne.1, hb], fun _ => hne⟩

/-- C5 witness: the amended classification applied at `144 / (-12)`. -/
theorem div_error_classification_witness :
    (BigNum.div ⟨['1', '4', '4'], ['0']⟩ ⟨['-', '1', '2'], ['0']⟩ =
        .error .indeterminateForm ↔
      (⟨['-', '1', '2'], ['0']⟩ : BigNum).sign = 0 ∧
        (⟨['1', '4', '4'], ['0']⟩ : BigNum).sign = 0) ∧
    BigNum.div ⟨['1', '4', '4'], ['0']⟩ ⟨['-', '1', '2'], ['0']⟩ ≠
      .error .divisionByZero := by
  have h := div_error_classification ⟨['1', '4', '4'], ['0']⟩ ⟨['-', '1', '2'], ['0']⟩
  refine ⟨h.1, ?_⟩
  exact (h.2.2 (BigNum.val_ne_zero_of_asBigInt (by decide))).1

/-! ### Claim C10: idempotence of rounding -/

theorem BigNum.applyRounding_last_zero (mode : RoundingMode) (u five : ℤ)
    (h : 0 < five) : applyRounding mode u 0 five = .ok u := by
  have h1 : ¬(0 : ℤ) < 0 := lt_irrefl 0
  have h2 : ¬five < (0 : ℤ) := not_lt.mpr h.le
  have h3 : ¬(0 : ℤ) < -five := by omega
  have h4 : ¬five ≤ (0 : ℤ) := not_le.mpr h
  have h5 : ¬(0 : ℤ) ≤ -five := by omega
  have h7 : ¬(0 : ℤ) = five := by omega
  have h8 : ¬(0 : ℤ) = -five := by omega
  cases mode
  case UP => rw [applyRounding, if_neg h1, if_neg h1]
  case DOWN => rfl
  case CEIL => rw [applyRounding, if_neg h1]
  case FLOOR => rw [applyRounding, if_neg h1]
  case HALF_DOWN => rw [applyRounding, if_neg h2, if_neg h3]
  case HALF_UP => rw [applyRounding, if_neg h4, if_neg h5]
  case HALF_EVEN =>
    rw [applyRounding, if_neg h2, if_neg h3, if_neg h7, if_neg h8, ite_self]
  case UNNECESSARY =>
    rw [applyRounding, if_neg (by simp : ¬((0 : ℤ) < 0 ∨ (0 : ℤ) < 0))]

theorem length_stripTrailingZeros_le (l : List Char) :
    (stripTrailingZeros l).length ≤ max 1 l.length := by
  rw [stripTrailingZeros_eq]
  by_cases he : (dropTrailingZeros l).isEmpty
  · rw [if_pos he]
    simp
  · rw [if_neg he]
    exact le_max_of_le_right (dropTrailingZeros_decomp l).2

/-- C10.  `BigNum.round` is idempotent: a successful rounding is a fixed
point of rounding at the same context, and a number already storing no
more than `context.precision` fractional digits is returned unchanged. -/
theorem BigNum.round_idempotent (x : BigNum) (c : MathContext) :
    (∀ y, BigNum.round x c = .ok y → BigNum.round y c = .ok y) ∧
    (x.precision ≤ c.precision → BigNum.round x c = .ok x) := by
  have hshort : ∀ z : BigNum, z.precision ≤ c.precision →
      BigNum.round z c = .ok z := by
    intro z hz
    rw [BigNum.round, if_neg (not_lt.mpr hz)]
  refine ⟨?_, hshort x⟩
  intro y hy
  by_cases hbr : c.precision < x.precision
  · rw [BigNum.round, if_pos hbr] at hy
    simp only [] at hy
    rcases happly : applyRounding c.rounding (x.asBigInt.tdiv (10 ^ (x.precision - c.precision)))
        (x.asBigInt.tmod (10 ^ (x.precision - c.precision)))
        (5 * 10 ^ (x.precision - c.precision - 1)) with e | rounded
    · rw [happly] at hy
      simp at hy
    · rw [happly] at hy
      simp only [Except.ok.injEq] at hy
      subst hy
      by_cases hp : c.precision = 0
      · -- precision 0: the result has decimal "0" and one stored digit;
        -- the second pass divides the appended zero back out.
        have hi0 : ((intToString rounded).length : ℤ) - (c.precision : ℤ) =
            ((intToString rounded).length : ℤ) := by
          rw [hp]
          simp
        have htk : jsTake (((intToString rounded).length : ℤ) - (c.precision : ℤ))
            (intToString rounded) = intToString rounded := by
          rw [hi0, jsTake, Int.toNat_natCast, List.take_length]
        have hdr : jsDrop (((intToString rounded).length : ℤ) - (c.precision : ℤ))
            (intToString rounded) = [] := by
          rw [hi0, jsDrop, Int.toNat_natCast, List.drop_length]
        rw [htk, hdr]
        have hy2 : BigNum.construct2 (intToString rounded) [] =
            ⟨intToString rounded, ['0']⟩ := by
          rw [BigNum.construct2, stripLeadingZeros_intToString]
          rfl
        rw [hy2]
        have hprec : (⟨intToString rounded, ['0']⟩ : BigNum).precision = 1 := rfl
        rw [BigNum.round, if_pos (by rw [hprec, hp]; norm_num)]
        simp only []
        have hnum : (⟨intToString rounded, ['0']⟩ : BigNum).asBigInt =
            10 * rounded := by
          rw [BigNum.asBigInt]
          show parseBigInt (intToString rounded ++ ['0']) = 10 * rounded
          rw [parseBigInt_append_zero, parseBigInt_intToString]
        have hsimp10 : (10 : ℤ) ^ ((⟨intToString rounded, ['0']⟩ : BigNum).precision
            - c.precision) = 10 := by
          rw [hprec, hp]
          norm_num
        have hdiv : (⟨intToString rounded, ['0']⟩ : BigNum).asBigInt.tdiv
            (10 ^ ((⟨intToString rounded, ['0']⟩ : BigNum).precision - c.precision)) =
            rounded := by
          rw [hnum, hsimp10]
          exact Int.mul_tdiv_cancel_left rounded (by norm_num)
        have hmod : (⟨intToString rounded, ['0']⟩ : BigNum).asBigInt.tmod
            (10 ^ ((⟨intToString rounded, ['0']⟩ : BigNum).precision - c.precision)) =
            0 := by
          rw [hnum, hsimp10, mul_comm]
          exact Int.mul_tmod_left rounded 10
        have hfive : (5 : ℤ) * 10 ^ ((⟨intToString rounded, ['0']⟩ : BigNum).precision
            - c.precision - 1) = 5 := by
          rw [hprec, hp]
          norm_num
        rw [hdiv, hmod, hfive,
          BigNum.applyRounding_last_zero c.rounding rounded 5 (by norm_num)]
        simp only []
        rw [htk, hdr, hy2]
      · -- positive precision: the kept fractional string has at most
        -- `c.precision` digits, so the second pass is the identity branch.
        apply hshort
        have hlen : (jsDrop (((intToString rounded).length : ℤ) - (c.precision : ℤ))
            (intToString rounded)).length ≤ c.precision := by
          rw [jsDrop, List.length_drop]
          rcases le_or_lt (intToString rounded).length c.precision with hle | hlt
          · omega
          · have : (((intToString rounded).length : ℤ) - (c.precision : ℤ)).toNat =
                (intToString rounded).length - c.precision := by omega
            omega
        have := length_stripTrailingZeros_le
          (jsDrop (((intToString rounded).length : ℤ) - (c.precision : ℤ))
            (intToString rounded))
        show (stripTrailingZeros (jsDrop (((intToString rounded).length : ℤ) -
          (c.precision : ℤ)) (intToString rounded))).length ≤ c.precision
        omega
  · rw [BigNum.round, if_neg hbr] at hy
    simp only [Except.ok.injEq] at hy
    subst hy
    exact hshort x (not_lt.mp hbr)

/-- C10 witness: rounding `2.57` at one `HALF_UP` digit gives `2.6`, and
rounding the result again returns it unchanged; a value already at one
digit is returned as is. -/
theorem round_idempotent_witness :
    BigNum.round ⟨['2'], ['6']⟩ ⟨1, .HALF_UP⟩ = .ok ⟨['2'], ['6']⟩ ∧
    BigNum.round ⟨['2'], ['5', '7']⟩ ⟨1, .HALF_UP⟩ = .ok ⟨['2'], ['6']⟩ := by
  constructor
  · exact (BigNum.round_idempotent ⟨['2'], ['5', '7']⟩ ⟨1, .HALF_UP⟩).1
      ⟨['2'], ['6']⟩ (by decide)
  · exact by decide

/-! ### Claim C6: `UNNECESSARY` rounding -/

/-- The representation invariant the `BigNum` constructor establishes on
number-shaped input: an optionally signed digit string as integer part, and
a nonempty digit string without a trailing zero (except `"0"` itself) as
decimal part. -/
def BigNum.normalizedRep (x : BigNum) : Bool :=
  signedDigits x.integer && allDigits x.decimal && !x.decimal.isEmpty &&
    (x.decimal == ['0'] || x.decimal.getLast? != some '0')

/-- Specification-side: `x` is exactly representable with `p` fractional
digits. -/
def BigNum.exactAt (x : BigNum) (p : ℕ) : Prop :=
  ∃ m : ℤ, x.val * 10 ^ p = (m : ℚ)

theorem BigNum.exactAt_of_precision_le {x : BigNum} {p : ℕ}
    (h : x.precision ≤ p) : x.exactAt p := by
  refine ⟨x.asBigInt * 10 ^ (p - x.precision), ?_⟩
  rw [BigNum.val]
  have hsplit : p = x.precision + (p - x.precision) := by omega
  rw [hsplit, pow_add]
  have h10 : ((10 : ℚ) ^ x.precision) ≠ 0 := by positivity
  push_cast
  field_simp
  ring

theorem BigNum.exactAt_iff_dvd {x : BigNum} {p : ℕ} (h : p < x.precision) :
    x.exactAt p ↔ ((10 : ℤ) ^ (x.precision - p)) ∣ x.asBigInt := by
  have hval : x.val * 10 ^ p = (x.asBigInt : ℚ) / 10 ^ (x.precision - p) := by
    rw [BigNum.val]
    have hsplit : x.precision = (x.precision - p) + p := by omega
    rw [hsplit, pow_add]
    have h1 : ((10 : ℚ) ^ (x.precision - p)) ≠ 0 := by positivity
    have h2 : ((10 : ℚ) ^ p) ≠ 0 := by positivity
    field_simp
    ring
  constructor
  · rintro ⟨m, hm⟩
    rw [hval] at hm
    have h1 : ((10 : ℚ) ^ (x.precision - p)) ≠ 0 := by positivity
    have : (x.asBigInt : ℚ) = (m : ℚ) * 10 ^ (x.precision - p) := by
      field_simp at hm
      linarith [hm]
    have hz : x.asBigInt = m * 10 ^ (x.precision - p) := by
      exact_mod_cast this
    exact ⟨m, by rw [hz]; ring⟩
  · rintro ⟨k, hk⟩
    refine ⟨k, ?_⟩
    rw [hval, hk]
    have h1 : ((10 : ℚ) ^ (x.precision - p)) ≠ 0 := by positivity
    push_cast
    field_simp

theorem BigNum.not_dvd_asBigInt {x : BigNum} (hnorm : x.normalizedRep = true)
    (hne : x.decimal ≠ ['0']) {d : ℕ} (hd1 : 1 ≤ d) :
    ¬((10 : ℤ) ^ d) ∣ x.asBigInt := by
  simp only [BigNum.normalizedRep, Bool.and_eq_true, Bool.or_eq_true,
    Bool.not_eq_true', beq_iff_eq, bne_iff_ne, List.isEmpty_eq_false] at hnorm
  obtain ⟨⟨⟨hsig, hdec⟩, hdne⟩, hlast⟩ := hnorm
  have hlast' : x.decimal.getLast? ≠ some '0' := by
    rcases hlast with h | h
    · exact absurd h hne
    · exact h
  obtain hcon | ⟨L, c, hLc⟩ := x.decimal.eq_nil_or_concat'
  · exact absurd hcon hdne
  intro hdvd
  have h10 : (10 : ℤ) ∣ x.asBigInt :=
    dvd_trans (dvd_pow_self 10 (by omega : d ≠ 0)) hdvd
  have hsplit := parseBigInt_append x.integer x.decimal hsig hdec
  rw [BigNum.asBigInt] at h10
  rw [hsplit] at h10
  have hdecsplit : parseDigits x.decimal = parseDigits L * 10 + dval c := by
    rw [hLc, parseDigits_append]
    have hc : parseDigits [c] = dval c := by
      rw [show ([c] : List Char) = c :: [] from rfl, parseDigits_cons,
        parseDigits_nil]
      simp
    rw [hc]
    simp
  have hcd : isDigitCh c = true := by
    rw [allDigits_iff] at hdec
    exact hdec c (by rw [hLc]; exact List.mem_append.mpr (Or.inr (by simp)))
  have hc0 : c ≠ '0' := by
    intro hc
    subst hc
    apply hlast'
    rw [hLc]
    simp
  have hc1 : 1 ≤ dval c := digit_ne_zero_dval hcd hc0
  have hc9 : dval c < 10 := dval_lt_of_digit hcd
  have hlendec : x.decimal.length = L.length + 1 := by
    rw [hLc]
    simp
  rw [hdecsplit, hlendec] at h10
  -- 10 divides everything except the sign times the last digit
  by_cases hsgn : x.integer.head? = some '-'
  · rw [if_pos hsgn] at h10
    have : (10 : ℤ) ∣ -dval c := by
      have heq : -dval c = parseBigInt x.integer * 10 ^ (L.length + 1) +
          -1 * (parseDigits L * 10 + dval c) -
          10 * (parseBigInt x.integer * 10 ^ L.length - parseDigits L) := by
        rw [pow_succ]
        ring
      rw [heq]
      exact dvd_sub h10 (Dvd.intro _ rfl)
    rw [Int.dvd_neg] at this
    have := Int.le_of_dvd (by omega) this
    omega
  · rw [if_neg hsgn] at h10
    have : (10 : ℤ) ∣ dval c := by
      have heq : dval c = parseBigInt x.integer * 10 ^ (L.length + 1) +
          1 * (parseDigits L * 10 + dval c) -
          10 * (parseBigInt x.integer * 10 ^ L.length + parseDigits L) := by
        rw [pow_succ]
        ring
      rw [heq]
      exact dvd_sub h10 (Dvd.intro _ rfl)
    have := Int.le_of_dvd (by omega) this
    omega

/-- With the `UNNECESSARY` rounding mode, the idealized `BigNum.round`
raises the "Rounding necessary" error exactly when the value is not
exactly representable with `context.precision` fractional digits; when it
is, the returned number has the same value as the input.  Stated for
numbers satisfying the constructor's representation invariant; the
digit-gap bound of 22 delimits the regime in which the idealized divider
matches the engine's double (`roundF_eq_round` below). -/
theorem BigNum.round_UNNECESSARY_spec (x : BigNum) (p : ℕ)
    (hnorm : x.normalizedRep = true) (hbound : x.precision ≤ 22 + p) :
    (BigNum.round x ⟨p, .UNNECESSARY⟩ = .error .roundingNecessary ↔
      ¬x.exactAt p) ∧
    (∀ y, BigNum.round x ⟨p, .UNNECESSARY⟩ = .ok y → y.val = x.val) := by
  by_cases hbr : p < x.precision
  · by_cases hdec : x.decimal = ['0']
    · -- only one stored digit, a zero: the value is an integer and the
      -- dropped digit is zero, so rounding returns the value unchanged.
      have hprec1 : x.precision = 1 := by simp [BigNum.precision, hdec]
      have hp0 : p = 0 := by omega
      subst hp0
      have hA : x.asBigInt = 10 * parseBigInt x.integer := by
        rw [BigNum.asBigInt, hdec, parseBigInt_append_zero]
      have hexact : x.exactAt 0 := by
        rw [BigNum.exactAt_iff_dvd hbr, hprec1, hA]
        norm_num
      have e1 : x.asBigInt.tdiv (10 ^ (x.precision - 0)) =
          parseBigInt x.integer := by
        rw [hA, hprec1, pow_one]
        exact Int.mul_tdiv_cancel_left _ (by norm_num)
      have e2 : x.asBigInt.tmod (10 ^ (x.precision - 0)) = 0 := by
        rw [hA, hprec1, pow_one, mul_comm]
        exact Int.mul_tmod_left _ 10
      have e3 : (5 : ℤ) * 10 ^ (x.precision - 0 - 1) = 5 := by
        rw [hprec1]
        norm_num
      have hokform : BigNum.round x ⟨0, .UNNECESSARY⟩ =
          .ok ⟨intToString (parseBigInt x.integer), ['0']⟩ := by
        rw [BigNum.round,
          if_pos (show (⟨0, RoundingMode.UNNECESSARY⟩ : MathContext).precision <
            x.precision from hbr)]
        simp only []
        rw [e1, e2, e3,
          BigNum.applyRounding_last_zero RoundingMode.UNNECESSARY _ 5 (by norm_num)]
        simp only []
        have htk : jsTake (((intToString (parseBigInt x.integer)).length : ℤ) -
            ((0 : ℕ) : ℤ)) (intToString (parseBigInt x.integer)) =
            intToString (parseBigInt x.integer) := by
          rw [jsTake]
          norm_num
        have hdr : jsDrop (((intToString (parseBigInt x.integer)).length : ℤ) -
            ((0 : ℕ) : ℤ)) (intToString (parseBigInt x.integer)) = [] := by
          rw [jsDrop]
          norm_num
        rw [htk, hdr, BigNum.construct2, stripLeadingZeros_intToString]
        rfl
      constructor
      · rw [hokform]
        constructor
        · intro h
          exact absurd h (by simp)
        · intro h
          exact absurd hexact h
      · intro y hy
        rw [hokform] at hy
        simp only [Except.ok.injEq] at hy
        subst hy
        have hvy : BigNum.val ⟨intToString (parseBigInt x.integer), ['0']⟩ =
            ((10 * parseBigInt x.integer : ℤ) : ℚ) / 10 ^ 1 := by
          apply BigNum.val_eval
          · rw [BigNum.asBigInt]
            show parseBigInt (intToString (parseBigInt x.integer) ++ ['0']) = _
            rw [parseBigInt_append_zero, parseBigInt_intToString]
          · rfl
        rw [hvy, BigNum.val_eval hA hprec1]
    · -- a significant digit is dropped: the mode must fail, and indeed the
      -- value is not representable at the requested precision.
      have hd1 : 1 ≤ x.precision - p := by omega
      have hdvd : ¬((10 : ℤ) ^ (x.precision - p)) ∣ x.asBigInt :=
        BigNum.not_dvd_asBigInt hnorm hdec hd1
      have hnex : ¬x.exactAt p := fun he =>
        hdvd ((BigNum.exactAt_iff_dvd hbr).mp he)
      have hmod : x.asBigInt.tmod (10 ^ (x.precision - p)) ≠ 0 := fun h =>
        hdvd (Int.dvd_of_tmod_eq_zero h)
      have herrform : BigNum.round x ⟨p, .UNNECESSARY⟩ =
          .error .roundingNecessary := by
        rw [BigNum.round,
          if_pos (show (⟨p, RoundingMode.UNNECESSARY⟩ : MathContext).precision <
            x.precision from hbr)]
        simp only []
        rw [applyRounding, if_pos (by omega :
          0 < x.asBigInt.tmod (10 ^ (x.precision - p)) ∨
            x.asBigInt.tmod (10 ^ (x.precision - p)) < 0)]
      rw [herrform]
      refine ⟨iff_of_true rfl hnex, ?_⟩
      intro y hy
      simp at hy
  · have hok : BigNum.round x ⟨p, .UNNECESSARY⟩ = .ok x := by
      rw [BigNum.round, if_neg (show ¬(⟨p, RoundingMode.UNNECESSARY⟩ :
        MathContext).precision < x.precision from hbr)]
    rw [hok]
    refine ⟨?_, ?_⟩
    · constructor
      · intro h
        exact absurd h (by simp)
      · intro h
        exact absurd (BigNum.exactAt_of_precision_le (not_lt.mp hbr)) h
    · intro y hy
      simp only [Except.ok.injEq] at hy
      subst hy
      rfl

/-- Round-to-nearest at granularity `g`, ties to the even multiple: the
IEEE-754 tie-breaking rule on the last retained bit. -/
def rnear (n g : ℕ) : ℕ :=
  let q := n / g
  let r := n % g
  if 2 * r < g then q * g
  else if g < 2 * r then (q + 1) * g
  else if q % 2 = 0 then q * g else (q + 1) * g

/-- The unit in the last place of the binary64 double holding `n ≥ 2^53`:
the power of two `g` with `2^52 ≤ n / g < 2^53`, found by doubling.  The
fuel bounds the magnitude; 128 doublings cover every `n` below `2^181`,
far beyond every value exercised here. -/
def granAux (n : ℕ) : ℕ → ℕ → ℕ
  | 0, g => g
  | fuel + 1, g => if n < 2 ^ 53 * g then g else granAux n fuel (2 * g)

/-- The integer value of the binary64 double nearest to `n` (53
significant bits, round to nearest, ties to even); faithful for `n` below
`2^181`. -/
def f64nat (n : ℕ) : ℕ :=
  if n < 2 ^ 53 then n else rnear n (granAux n 128 1)

/-- The `BigInt(Math.pow(10, k))` scale factor of `BigNum.round` as the
engine computes it: the double nearest `10 ^ k`.  It is the exact power of
ten only up to `k = 22`; at `k = 23` it is `99999999999999991611392`. -/
def jsPow10 (k : ℕ) : ℤ := (f64nat (10 ^ k) : ℤ)

/-- The `BigInt(5 * Math.pow(10, k))` half-way threshold of
`BigNum.round`: the double power, multiplied by five and rounded again. -/
def jsFive (k : ℕ) : ℤ := (f64nat (5 * f64nat (10 ^ k)) : ℤ)

/-- `BigNum.round(x, context)` with the two scale factors taken as the
doubles the source actually computes; it differs from the idealized
`BigNum.round` above only in `divider` and `five`. -/
def BigNum.roundF (x : BigNum) (context : MathContext) :
    Except ArithError BigNum :=
  if context.precision < x.precision then
    let diff : ℕ := x.precision - context.precision
    let num : ℤ := x.asBigInt
    let divider : ℤ := jsPow10 diff
    let five : ℤ := jsFive (diff - 1)
    match applyRounding context.rounding (num.tdiv divider)
        (num.tmod divider) five with
    | .error e => .error e
    | .ok rounded =>
      let r : List Char := intToString rounded
      let i : ℤ := (r.length : ℤ) - context.precision
      .ok (construct2 (jsTake i r) (jsDrop i r))
  else .ok x

theorem jsPow10_eq_pow {d : ℕ} (hd : d ≤ 22) : jsPow10 d = 10 ^ d := by
  interval_cases d <;> decide

theorem jsFive_eq {d : ℕ} (hd : d ≤ 21) : jsFive d = 5 * 10 ^ d := by
  interval_cases d <;> decide

theorem roundF_eq_round (x : BigNum) (c : MathContext)
    (h : x.precision ≤ 22 + c.precision) :
    BigNum.roundF x c = BigNum.round x c := by
  by_cases hlt : c.precision < x.precision
  · rw [BigNum.roundF, BigNum.round, if_pos hlt, if_pos hlt]
    simp only []
    rw [jsPow10_eq_pow (show x.precision - c.precision ≤ 22 by omega),
      jsFive_eq (show x.precision - c.precision - 1 ≤ 21 by omega)]
  · rw [BigNum.roundF, BigNum.round, if_neg hlt, if_neg hlt]

/-- C6 counterexample.  Beyond 22 dropped digits the divider
`BigInt(Math.pow(10, diff))` is not a power of ten: at `diff = 23` it is
`99999999999999991611392`, so rounding the constructor-normalized
`0.99999999999999991611392` to precision `0` with `UNNECESSARY` divides
the unscaled integer by itself, sees a zero remainder, and returns `1.0`
without the claimed rounding-necessary error although the value is not an
integer. -/
theorem round_UNNECESSARY_misses_inexact :
    BigNum.mk' "0.99999999999999991611392".toList =
      .ok ⟨['0'], "99999999999999991611392".toList⟩ ∧
    BigNum.normalizedRep ⟨['0'], "99999999999999991611392".toList⟩ = true ∧
    jsPow10 23 = 99999999999999991611392 ∧
    BigNum.roundF ⟨['0'], "99999999999999991611392".toList⟩
      ⟨0, .UNNECESSARY⟩ = .ok ⟨['1'], ['0']⟩ ∧
    ¬(⟨['0'], "99999999999999991611392".toList⟩ : BigNum).exactAt 0 := by
  refine ⟨by decide, by decide, by decide, by decide, ?_⟩
  intro he
  have hd := (BigNum.exactAt_iff_dvd (x := ⟨['0'],
    "99999999999999991611392".toList⟩) (p := 0) (by decide)).mp he
  have hp : (⟨['0'], "99999999999999991611392".toList⟩ : BigNum).precision -
      0 = 23 := by decide
  have hA : (⟨['0'], "99999999999999991611392".toList⟩ : BigNum).asBigInt =
      99999999999999991611392 := by decide
  rw [hp, hA] at hd
  have hle := Int.le_of_dvd (by norm_num) hd
  norm_num at hle

/-- C6 amended.  In the faithful model the `UNNECESSARY` contract holds
exactly in the regime of at most 22 dropped digits, where the divider
double `Math.pow(10, diff)` is the exact power of ten: there the rounding
raises the rounding-necessary error precisely when the value is not
exactly representable with `context.precision` fractional digits, and any
successful result carries the value unchanged.  The counterexample above
shows the iff fails beyond that regime. -/
theorem BigNum.roundF_UNNECESSARY_spec (x : BigNum) (p : ℕ)
    (hnorm : x.normalizedRep = true) (hbound : x.precision ≤ 22 + p) :
    (BigNum.roundF x ⟨p, .UNNECESSARY⟩ = .error .roundingNecessary ↔
      ¬x.exactAt p) ∧
    (∀ y, BigNum.roundF x ⟨p, .UNNECESSARY⟩ = .ok y → y.val = x.val) := by
  rw [roundF_eq_round x ⟨p, .UNNECESSARY⟩ hbound]
  exact BigNum.round_UNNECESSARY_spec x p hnorm hbound

/-- C6 witness: `2.5` is not exact at precision 0, so `UNNECESSARY` fails
there in the faithful model; the normalization and regime hypotheses hold
for it. -/
theorem roundF_UNNECESSARY_spec_witness :
    (BigNum.roundF ⟨['2'], ['5']⟩ ⟨0, .UNNECESSARY⟩ = .error .roundingNecessary ↔
      ¬(⟨['2'], ['5']⟩ : BigNum).exactAt 0) ∧
    BigNum.roundF ⟨['2'], ['5']⟩ ⟨0, .UNNECESSARY⟩ = .error .roundingNecessary :=
  ⟨(BigNum.roundF_UNNECESSARY_spec ⟨['2'], ['5']⟩ 0 (by decide) (by decide)).1,
    by decide⟩

/-! ### Claim C2: division under the default context -/

theorem intToString_of_nonneg {m : ℤ} (h : 0 ≤ m) :
    intToString m = natToString m.toNat := by
  rw [intToString, if_neg (not_lt.mpr h)]

theorem intToString_of_neg {m : ℤ} (h : m < 0) :
    intToString m = '-' :: natToString m.natAbs := by
  rw [intToString, if_pos h]

theorem allDigits_take {s : List Char} (n : ℕ) (h : allDigits s = true) :
    allDigits (s.take n) = true := by
  rw [allDigits_iff] at h ⊢
  exact fun c hc => h c (List.take_subset n s hc)

theorem allDigits_drop {s : List Char} (n : ℕ) (h : allDigits s = true) :
    allDigits (s.drop n) = true := by
  rw [allDigits_iff] at h ⊢
  exact fun c hc => h c (List.drop_subset n s hc)

theorem allDigits_replicate_zero_append {s : List Char} (k : ℕ)
    (h : allDigits s = true) :
    allDigits (List.replicate k '0' ++ s) = true := by
  rw [allDigits_iff] at h ⊢
  intro c hc
  rcases List.mem_append.mp hc with hc | hc
  · rw [List.eq_of_mem_replicate hc]
    decide
  · exact h c hc

theorem length_natToString (m : ℕ) (h : m ≠ 0) :
    (natToString m).length = (Nat.digits 10 m).length := by
  rw [natToString, if_neg h, natDigitsAux_eq_digits le_rfl,
    List.length_reverse, List.length_map]

theorem length_natToString_ge {m : ℕ} (h : 10 ^ 16 ≤ m) :
    17 ≤ (natToString m).length := by
  have hm0 : m ≠ 0 := by positivity
  rw [length_natToString m hm0]
  by_contra hcon
  push_neg at hcon
  have h1 : m < 10 ^ (Nat.digits 10 m).length :=
    Nat.lt_base_pow_length_digits (by norm_num)
  have h2 : (10 : ℕ) ^ (Nat.digits 10 m).length ≤ 10 ^ 16 :=
    Nat.pow_le_pow_right (by norm_num) (by omega)
  omega

theorem specTrunc_nonneg {q : ℚ} (h : 0 ≤ q) : 0 ≤ specTrunc q := by
  rw [specTrunc, if_pos h]
  exact Int.le_floor.mpr (by exact_mod_cast h)

theorem specTrunc_le_neg {q : ℚ} {c : ℤ} (hc : 0 < c) (h : q ≤ -(c : ℚ)) :
    specTrunc q ≤ -c := by
  have hcq : (0 : ℚ) < (c : ℚ) := by exact_mod_cast hc
  have hq : q < 0 := lt_of_le_of_lt h (by linarith)
  rw [specTrunc, if_neg (not_le.mpr hq)]
  have h1 : (c : ℚ) ≤ -q := by linarith
  have h2 : c ≤ ⌊-q⌋ := Int.le_floor.mpr (by exact_mod_cast h1)
  omega

/-- The value denoted by the string the `div` method builds: splitting an
optionally signed digit string `17` places from the rear and normalizing
denotes the parsed integer divided by `10 ^ 17`, provided the string is at
least `17` characters long, and at least `18` when signed. -/
theorem BigNum.val_split17 (s : List Char) (hsig : signedDigits s = true)
    (hlen : 17 ≤ s.length)
    (hneg : s.head? = some '-' → 18 ≤ s.length) :
    BigNum.val (BigNum.construct2 (jsTake ((s.length : ℤ) - 17) s)
        (jsDrop ((s.length : ℤ) - 17) s)) =
      (parseBigInt s : ℚ) / 10 ^ 17 := by
  have hiN : (((s.length : ℤ) - 17)).toNat = s.length - 17 := by omega
  have hlo : (jsDrop ((s.length : ℤ) - 17) s).length = 17 := by
    rw [jsDrop, List.length_drop, hiN]
    omega
  have hjoin : jsTake ((s.length : ℤ) - 17) s ++ jsDrop ((s.length : ℤ) - 17) s
      = s := by
    rw [jsTake, jsDrop]
    exact List.take_append_drop _ s
  simp only [signedDigits, Bool.or_eq_true, Bool.and_eq_true, beq_iff_eq]
    at hsig
  rcases hsig with hdig | ⟨hhead, htail⟩
  · have hhi : allDigits (jsTake ((s.length : ℤ) - 17) s) = true :=
      allDigits_take _ hdig
    have hlodig : allDigits (jsDrop ((s.length : ℤ) - 17) s) = true :=
      allDigits_drop _ hdig
    rw [BigNum.val_construct2 _ _ (signedDigits_of_digits hhi) hlodig, hjoin,
      hlo]
  · rcases s with _ | ⟨c, t⟩
    · simp at hhead
    · have hc : c = '-' := by simpa using hhead
      subst hc
      have ht : allDigits t = true := htail
      have hlen18 : 18 ≤ t.length + 1 := by
        apply hneg
        simp
      have hpos : 1 ≤ (((t.length + 1 : ℕ) : ℤ) - 17).toNat := by
        simp only [List.length_cons] at *
        omega
      -- decompose take and drop over the leading sign
      have htk : jsTake (((('-' :: t).length : ℕ) : ℤ) - 17) ('-' :: t) =
          '-' :: t.take (t.length - 17) := by
        rw [jsTake]
        have : (((('-' :: t).length : ℕ) : ℤ) - 17).toNat = (t.length - 17) + 1 := by
          simp only [List.length_cons]
          omega
        rw [this, List.take_succ_cons]
      have hdr : jsDrop (((('-' :: t).length : ℕ) : ℤ) - 17) ('-' :: t) =
          t.drop (t.length - 17) := by
        rw [jsDrop]
        have : (((('-' :: t).length : ℕ) : ℤ) - 17).toNat = (t.length - 17) + 1 := by
          simp only [List.length_cons]
          omega
        rw [this, List.drop_succ_cons]
      rw [htk, hdr]
      have hsghi : signedDigits ('-' :: t.take (t.length - 17)) = true := by
        simp only [signedDigits, Bool.or_eq_true, Bool.and_eq_true, beq_iff_eq]
        exact Or.inr ⟨by simp, allDigits_take _ ht⟩
      have hlodig : allDigits (t.drop (t.length - 17)) = true :=
        allDigits_drop _ ht
      rw [BigNum.val_construct2 _ _ hsghi hlodig]
      have hjoin2 : '-' :: t.take (t.length - 17) ++ t.drop (t.length - 17) =
          '-' :: t := by
        rw [List.cons_append, List.take_append_drop]
      rw [hjoin2]
      have hlo2 : (t.drop (t.length - 17)).length = 17 := by
        rw [List.length_drop]
        simp only [List.length_cons] at hlen18
        omega
      rw [hlo2]

/-- C2 amended.  Without an explicit context, `div` scales the dividend by
`10 ^ (17 - this.precision + that.precision)` and divides with `BigInt`
division, which truncates toward zero; no `HALF_EVEN` rounding happens.
The result's value is the exact quotient truncated toward zero at 17
fractional digits.  Hypotheses: the divisor's value is nonzero; the
precisions keep the scale exponent within `[0, 22]` (nonnegative so the
power is integral, at most 22 so `Math.pow(10, k)` is an exact double);
and the quotient is nonnegative or at least `0.1` in magnitude (for a
negative quotient below `0.1` the padding and slicing of the quotient
string misplace the sign and the stored digits are garbage - a further
defect of the method). -/
theorem BigNum.div_truncates (a b : BigNum) (hb : b.val ≠ 0)
    (h1 : a.precision ≤ 17 + b.precision)
    (h2 : b.precision ≤ 5 + a.precision)
    (hq : 0 ≤ a.val / b.val ∨ 1 ≤ |a.val / b.val| * 10) :
    (BigNum.div a b).map BigNum.val =
      .ok ((specTrunc (a.val / b.val * 10 ^ 17) : ℚ) / 10 ^ 17) := by
  have hsign : ¬b.sign = 0 := BigNum.sign_ne_zero_of_val hb
  have hB : b.asBigInt ≠ 0 := fun h => hb ((BigNum.val_eq_zero_iff b).mpr h)
  have hdcz : ((BigNum.DEFAULT_CONTEXT.precision : ℕ) : ℤ) = 17 := rfl
  have hraise : ¬(((BigNum.DEFAULT_CONTEXT.precision : ℕ) : ℤ) -
      (a.precision : ℤ) + (b.precision : ℤ) < 0) := by
    rw [hdcz]
    omega
  rw [BigNum.div, if_neg hsign]
  simp only []
  rw [if_neg hraise, if_neg hB]
  simp only [Except.map, Except.ok.injEq]
  set R : ℕ := ((((BigNum.DEFAULT_CONTEXT.precision : ℕ) : ℤ) -
    (a.precision : ℤ) + (b.precision : ℤ))).toNat with hRdef
  have hR : R + a.precision = 17 + b.precision := by
    rw [hRdef, hdcz]
    omega
  set m : ℤ := (a.asBigInt * 10 ^ R).tdiv b.asBigInt with hm
  -- the computed integer is the truncation of the scaled exact quotient
  have hvq : a.val / b.val * 10 ^ 17 =
      ((a.asBigInt * 10 ^ R : ℤ) : ℚ) / (b.asBigInt : ℚ) := by
    have hBq : (b.asBigInt : ℚ) ≠ 0 := by exact_mod_cast hB
    rw [BigNum.val, BigNum.val]
    push_cast
    field_simp
    ring_nf
    rw [show (100000000000000000 : ℚ) = 10 ^ 17 by norm_num]
    have key : ∀ (X : ℚ) (p q r s : ℕ), p + q = r + s →
        X * 10 ^ p * 10 ^ q = X * 10 ^ r * 10 ^ s := by
      intro X p q r s h
      rw [mul_assoc, mul_assoc, ← pow_add, ← pow_add, h]
    exact key _ _ _ _ _ (by omega)
  have hmq : m = specTrunc (a.val / b.val * 10 ^ 17) := by
    rw [hm, hvq]
    exact tdiv_eq_specTrunc _ _ hB
  rcases le_or_lt 0 m with hm0 | hm0
  · -- nonnegative quotient: the quotient string is all digits and is
    -- padded with zeroes up to length 17
    have hqs : intToString m = natToString m.toNat := intToString_of_nonneg hm0
    have hdigs : allDigits (intToString m) = true := by
      rw [hqs]
      exact natToString_all_digits _
    have hmt : (((m.toNat : ℕ) : ℤ) : ℚ) = (m : ℚ) := by
      exact_mod_cast Int.toNat_of_nonneg hm0
    by_cases hpad : BigNum.DEFAULT_CONTEXT.precision > (intToString m).length
    · rw [if_pos hpad]
      have hlenp : (List.replicate (BigNum.DEFAULT_CONTEXT.precision -
          (intToString m).length) '0' ++ intToString m).length = 17 := by
        rw [List.length_append, List.length_replicate]
        have : BigNum.DEFAULT_CONTEXT.precision = 17 := rfl
        omega
      have hdigs2 : allDigits (List.replicate (BigNum.DEFAULT_CONTEXT.precision -
          (intToString m).length) '0' ++ intToString m) = true :=
        allDigits_replicate_zero_append _ hdigs
      rw [show ((List.replicate (BigNum.DEFAULT_CONTEXT.precision -
          (intToString m).length) '0' ++ intToString m).length : ℤ) -
          (BigNum.DEFAULT_CONTEXT.precision : ℤ) =
          ((List.replicate (BigNum.DEFAULT_CONTEXT.precision -
          (intToString m).length) '0' ++ intToString m).length : ℤ) - 17 from by
        rw [hdcz]]
      rw [BigNum.val_split17 _ (signedDigits_of_digits hdigs2) (by omega)
        (by intro hcontra
            rw [allDigits_iff] at hdigs2
            rcases hhd : (List.replicate (BigNum.DEFAULT_CONTEXT.precision -
                (intToString m).length) '0' ++ intToString m) with _ | ⟨c, t⟩
            · rw [hhd] at hlenp
              simp at hlenp
            · rw [hhd] at hcontra
              simp only [List.head?_cons, Option.some_inj] at hcontra
              have := hdigs2 c (by rw [hhd]; exact List.mem_cons_self c t)
              exact absurd (hcontra ▸ this) (by decide))]
      rw [parseBigInt_of_digits hdigs2, parseDigits_replicate_zero_append,
        hqs, parseDigits_natToString, hmt, ← hmq]
    · rw [if_neg hpad]
      rw [show ((intToString m).length : ℤ) -
          (BigNum.DEFAULT_CONTEXT.precision : ℤ) =
          ((intToString m).length : ℤ) - 17 from by rw [hdcz]]
      rw [BigNum.val_split17 _ (signedDigits_of_digits hdigs)
        (by
          have : BigNum.DEFAULT_CONTEXT.precision = 17 := rfl
          omega)
        (by intro hcontra
            rcases hhd : intToString m with _ | ⟨c, t⟩
            · simp [hhd] at hcontra
            · rw [hhd] at hcontra
              simp only [List.head?_cons, Option.some_inj] at hcontra
              rw [allDigits_iff] at hdigs
              have := hdigs c (by rw [hhd]; exact List.mem_cons_self c t)
              exact absurd (hcontra ▸ this) (by decide))]
      rw [parseBigInt_intToString, ← hmq]
  · -- negative quotient: by the magnitude hypothesis it is at most -10^16,
    -- so the string is a sign and at least 17 digits, and no padding
    -- happens
    have hqneg : a.val / b.val < 0 := by
      by_contra hcon
      push_neg at hcon
      have hge : 0 ≤ a.val / b.val * 10 ^ 17 := by positivity
      have := specTrunc_nonneg hge
      rw [← hmq] at this
      omega
    have habs : 1 ≤ -(a.val / b.val) * 10 := by
      rcases hq with hq | hq
      · exact absurd hq (not_le.mpr hqneg)
      · rw [abs_of_neg hqneg] at hq
        linarith
    have hm16 : m ≤ -(10 ^ 16) := by
      rw [hmq]
      apply specTrunc_le_neg (by norm_num)
      push_cast
      nlinarith [pow_pos (show (0:ℚ) < 10 by norm_num) 16]
    have hlen17 : 17 ≤ (natToString m.natAbs).length := by
      apply length_natToString_ge
      have h16 : (10 : ℤ) ^ 16 ≤ (m.natAbs : ℤ) := by
        have := Int.natAbs_of_nonneg (show (0:ℤ) ≤ -m by omega)
        omega
      exact_mod_cast h16
    have hqs : intToString m = '-' :: natToString m.natAbs :=
      intToString_of_neg (by omega)
    have hlen18 : 18 ≤ (intToString m).length := by
      rw [hqs, List.length_cons]
      omega
    have hpad : ¬(BigNum.DEFAULT_CONTEXT.precision > (intToString m).length) := by
      have : BigNum.DEFAULT_CONTEXT.precision = 17 := rfl
      omega
    rw [if_neg hpad]
    rw [show ((intToString m).length : ℤ) -
        (BigNum.DEFAULT_CONTEXT.precision : ℤ) =
        ((intToString m).length : ℤ) - 17 from by rw [hdcz]]
    have hsg : signedDigits (intToString m) = true := signedDigits_intToString m
    rw [BigNum.val_split17 _ hsg (by omega) (fun _ => hlen18)]
    rw [parseBigInt_intToString, ← hmq]

/-- Half-even rounding of a rational at `p` fractional digits, stated from
the specification's words: ties resolve to the even last digit. -/
def specHalfEvenAt (q : ℚ) (p : ℕ) : ℚ :=
  ((if 1 / 2 < q * 10 ^ p - (⌊q * 10 ^ p⌋ : ℚ) then ⌊q * 10 ^ p⌋ + 1
    else if q * 10 ^ p - (⌊q * 10 ^ p⌋ : ℚ) < 1 / 2 then ⌊q * 10 ^ p⌋
    else if Even ⌊q * 10 ^ p⌋ then ⌊q * 10 ^ p⌋
    else ⌊q * 10 ^ p⌋ + 1 : ℤ) : ℚ) / 10 ^ p

theorem specHalfEven_two_thirds :
    specHalfEvenAt ((2 : ℚ) / 3) 17 = (66666666666666667 : ℚ) / 10 ^ 17 := by
  have hfloor : ⌊(2 : ℚ) / 3 * 10 ^ 17⌋ = 66666666666666666 := by
    have hfrac : (2 : ℚ) / 3 * 10 ^ 17 =
        ((200000000000000000 : ℤ) : ℚ) / ((3 : ℕ) : ℚ) := by norm_num
    rw [hfrac, Rat.floor_intCast_div_natCast]
    decide
  rw [specHalfEvenAt, hfloor]
  have hf : (2 : ℚ) / 3 * 10 ^ 17 - ((66666666666666666 : ℤ) : ℚ) = 2 / 3 := by
    push_cast
    norm_num
  rw [hf, if_pos (by norm_num : (1 : ℚ) / 2 < 2 / 3)]
  push_cast
  norm_num

/-- C2 counterexample.  `2 / 3` under the default context: the code's
result has 17 sixes after the point (truncation), while half-even rounding
of the exact quotient at 17 digits would end in 7. -/
theorem div_not_halfEven :
    BigNum.mk' "2".toList = .ok ⟨['2'], ['0']⟩ ∧
    BigNum.mk' "3".toList = .ok ⟨['3'], ['0']⟩ ∧
    (BigNum.div ⟨['2'], ['0']⟩ ⟨['3'], ['0']⟩).map BigNum.val ≠
      .ok (specHalfEvenAt
        (BigNum.val ⟨['2'], ['0']⟩ / BigNum.val ⟨['3'], ['0']⟩) 17) := by
  have hv2 : BigNum.val ⟨['2'], ['0']⟩ = 2 := by
    rw [BigNum.val_eval (show (⟨['2'], ['0']⟩ : BigNum).asBigInt = 20 by decide)
      (show (⟨['2'], ['0']⟩ : BigNum).precision = 1 from rfl)]
    norm_num
  have hv3 : BigNum.val ⟨['3'], ['0']⟩ = 3 := by
    rw [BigNum.val_eval (show (⟨['3'], ['0']⟩ : BigNum).asBigInt = 30 by decide)
      (show (⟨['3'], ['0']⟩ : BigNum).precision = 1 from rfl)]
    norm_num
  have hdiv : BigNum.div ⟨['2'], ['0']⟩ ⟨['3'], ['0']⟩ =
      .ok ⟨['0'], ['6', '6', '6', '6', '6', '6', '6', '6', '6', '6', '6', '6',
        '6', '6', '6', '6', '6']⟩ := by decide
  have hvr : BigNum.val ⟨['0'], ['6', '6', '6', '6', '6', '6', '6', '6', '6',
      '6', '6', '6', '6', '6', '6', '6', '6']⟩ =
      (66666666666666666 : ℚ) / 10 ^ 17 := by
    rw [BigNum.val_eval
      (show (⟨['0'], ['6', '6', '6', '6', '6', '6', '6', '6', '6', '6', '6',
        '6', '6', '6', '6', '6', '6']⟩ : BigNum).asBigInt = 66666666666666666
        by decide)
      (show (⟨['0'], ['6', '6', '6', '6', '6', '6', '6', '6', '6', '6', '6',
        '6', '6', '6', '6', '6', '6']⟩ : BigNum).precision = 17 from rfl)]
    norm_num
  refine ⟨by decide, by decide, ?_⟩
  intro hcontra
  rw [hdiv] at hcontra
  simp only [Except.map, Except.ok.injEq] at hcontra
  rw [hvr, hv2, hv3, specHalfEven_two_thirds] at hcontra
  have h17 : ((10 : ℚ) ^ 17) ≠ 0 := by positivity
  rw [div_eq_div_iff h17 h17] at hcontra
  norm_num at hcontra

/-- C2 witness: the amended truncation semantics applied to `144 / 12`. -/
theorem div_truncates_witness :
    (BigNum.div ⟨['1', '4', '4'], ['0']⟩ ⟨['1', '2'], ['0']⟩).map BigNum.val =
      .ok ((specTrunc (BigNum.val ⟨['1', '4', '4'], ['0']⟩ /
        BigNum.val ⟨['1', '2'], ['0']⟩ * 10 ^ 17) : ℚ) / 10 ^ 17) :=
  BigNum.div_truncates _ _ (BigNum.val_ne_zero_of_asBigInt (by decide))
    (by decide) (by decide)
    (Or.inl (div_nonneg
      (BigNum.val_nonneg_of_digits (by decide) (by decide))
      (BigNum.val_nonneg_of_digits (by decide) (by decide))))

/-! ### The literal validator of `parseNum` (parsing helpers) -/

/-- `isInteger(s, positive)` of the parsing helpers: strip one leading sign
(`'+'` only when `positive`, either sign otherwise) and check that every
remaining character passes the `x in valids` test, which holds exactly of
the ten digit characters. -/
def isInteger (s : List Char) (positive : Bool := false) : Bool :=
  let st :=
    if positive then (if s.head? = some '+' then s.tail else s)
    else if s.head? = some '+' ∨ s.head? = some '-' then s.tail else s
  st.all fun c => isDigitCh c

/-- `isDecimal(s)`: split on `'.'`; at most two parts, the integer part an
optionally signed integer, the fractional part a `'+'`-only integer. -/
def isDecimal (s : List Char) : Bool :=
  match splitOnDot s with
  | [p0] => isInteger p0
  | [p0, p1] => isInteger p0 && isInteger p1 true
  | _ => false

/-- `isValid(s)`: when an `'e'` occurs, the part before the first `'e'`
must be a decimal and the part after it an integer; otherwise the whole
string must be a decimal. -/
def isValid (s : List Char) : Bool :=
  if 'e' ∈ s then
    isDecimal (s.takeWhile fun c => ¬c = 'e') &&
      isInteger ((s.dropWhile fun c => ¬c = 'e').tail)
  else isDecimal s

/-! ### Claim C4: canonical form of `toString` after construction -/

/-- The canonical-form predicate of the specification: one decimal point,
a nonempty optionally `'-'`-signed integer part with no superfluous
leading zero, and a nonempty fractional part with no superfluous trailing
zero. -/
def isCanonicalB (s : List Char) : Bool :=
  match splitOnDot s with
  | [ip, fp] =>
    (if ip.head? = some '-' then
      allDigits ip.tail && !ip.tail.isEmpty &&
        (ip.tail == ['0'] || !(ip.tail.head? == some '0'))
    else
      allDigits ip && !ip.isEmpty && (ip == ['0'] || !(ip.head? == some '0'))) &&
    allDigits fp && !fp.isEmpty && (fp == ['0'] || !(fp.getLast? == some '0'))
  | _ => false

/-- An unsigned decimal literal: digits and at most one point. -/
def unsignedLiteral (s : List Char) : Bool :=
  s.all (fun c => isDigitCh c || c = '.') && s.count '.' ≤ 1

/-- The value denoted by an unsigned decimal literal. -/
def litValQ (s : List Char) : ℚ :=
  match splitOnDot s with
  | [ip] => (parseDigits ip : ℚ)
  | [ip, fp] => (parseDigits (ip ++ fp) : ℚ) / 10 ^ fp.length
  | _ => 0

/-- C4 counterexample.  The literal `"-00.5"` is accepted by the parsing
validator, but the constructor only strips leading zeroes when the first
character is `'0'`, so the sign blocks the scan and `toString` reproduces
the superfluous zeroes: the output is not canonical. -/
theorem create_toString_keeps_signed_leading_zeros :
    isValid "-00.5".toList = true ∧
    BigNum.mk' "-00.5".toList = .ok ⟨['-', '0', '0'], ['5']⟩ ∧
    BigNum.toString ⟨['-', '0', '0'], ['5']⟩ = "-00.5".toList ∧
    isCanonicalB (BigNum.toString ⟨['-', '0', '0'], ['5']⟩) = false := by
  decide

theorem splitOnDot_no_dot {s : List Char} (h : '.' ∉ s) :
    splitOnDot s = [s] := by
  induction s with
  | nil => rfl
  | cons c t ih =>
    have hc : ¬c = '.' := fun hc => h (hc ▸ List.mem_cons_self c t)
    rw [splitOnDot, if_neg hc, ih fun ht => h (List.mem_cons_of_mem c ht)]

theorem splitOnDot_append_dot {x : List Char} (y : List Char)
    (h : '.' ∉ x) : splitOnDot (x ++ '.' :: y) = x :: splitOnDot y := by
  induction x with
  | nil =>
    rw [List.nil_append, splitOnDot, if_pos rfl]
  | cons c t ih =>
    have hc : ¬c = '.' := fun hc => h (hc ▸ List.mem_cons_self c t)
    rw [List.cons_append, splitOnDot, if_neg hc,
      ih fun ht => h (List.mem_cons_of_mem c ht)]

theorem mem_of_mem_dropWhile {p : Char → Bool} {s : List Char} {c : Char}
    (h : c ∈ s.dropWhile p) : c ∈ s := by
  induction s with
  | nil => simp at h
  | cons a t ih =>
    rw [List.dropWhile_cons] at h
    by_cases ha : p a = true
    · rw [if_pos ha] at h
      exact List.mem_cons_of_mem _ (ih h)
    · rw [if_neg ha] at h
      exact h

theorem dropWhile_head_false {p : Char → Bool} {s r : List Char} {c : Char}
    (h : s.dropWhile p = c :: r) : p c = false := by
  induction s with
  | nil => simp at h
  | cons a t ih =>
    rw [List.dropWhile_cons] at h
    by_cases ha : p a = true
    · rw [if_pos ha] at h
      exact ih h
    · rw [if_neg ha] at h
      rw [← (List.cons_eq_cons.mp h).1]
      exact Bool.not_eq_true _ ▸ (by simpa using ha)

theorem stripLeadingZeros_digits {s : List Char} (h : allDigits s = true) :
    allDigits (stripLeadingZeros s) = true := by
  rw [stripLeadingZeros]
  by_cases he : (s.dropWhile fun c => c = '0').isEmpty
  · rw [if_pos he]
    decide
  · rw [if_neg he]
    rw [allDigits_iff] at h ⊢
    exact fun c hc => h c (mem_of_mem_dropWhile hc)

theorem stripLeadingZeros_ne_nil (s : List Char) :
    stripLeadingZeros s ≠ [] := by
  rw [stripLeadingZeros]
  by_cases he : (s.dropWhile fun c => c = '0').isEmpty
  · rw [if_pos he]
    simp
  · rw [if_neg he]
    simpa [List.isEmpty_iff] using he

theorem stripLeadingZeros_canonical (s : List Char) :
    stripLeadingZeros s = ['0'] ∨
      (stripLeadingZeros s).head? ≠ some '0' := by
  rcases hdw : s.dropWhile (fun c => c = '0') with _ | ⟨c, r⟩
  · left
    rw [stripLeadingZeros, hdw]
    rfl
  · right
    have hc : ¬c = '0' := by
      have := dropWhile_head_false hdw
      simpa using this
    rw [stripLeadingZeros, hdw]
    simpa [List.isEmpty_cons] using fun hcc => hc hcc

theorem stripLeadingZeros_no_dot {s : List Char} (h : '.' ∉ s) :
    '.' ∉ stripLeadingZeros s := by
  rw [stripLeadingZeros]
  by_cases he : (s.dropWhile fun c => c = '0').isEmpty
  · rw [if_pos he]
    decide
  · rw [if_neg he]
    exact fun hc => h (mem_of_mem_dropWhile hc)

theorem stripTrailingZeros_ne_nil (s : List Char) :
    stripTrailingZeros s ≠ [] := by
  rw [stripTrailingZeros_eq]
  by_cases he : (dropTrailingZeros s).isEmpty
  · rw [if_pos he]
    simp
  · rw [if_neg he]
    simpa [List.isEmpty_iff] using he

theorem stripTrailingZeros_canonical (s : List Char) :
    stripTrailingZeros s = ['0'] ∨
      (stripTrailingZeros s).getLast? ≠ some '0' := by
  rcases hdw : s.reverse.dropWhile (fun c => c = '0') with _ | ⟨c, r⟩
  · left
    rw [stripTrailingZeros_eq, dropTrailingZeros, hdw]
    rfl
  · right
    have hc : ¬c = '0' := by
      have := dropWhile_head_false hdw
      simpa using this
    rw [stripTrailingZeros_eq, dropTrailingZeros, hdw]
    rw [if_neg (by simp)]
    rw [List.getLast?_reverse]
    simpa using fun hcc => hc hcc

theorem stripTrailingZeros_no_dot {s : List Char} (h : '.' ∉ s) :
    '.' ∉ stripTrailingZeros s := by
  rw [stripTrailingZeros_eq]
  by_cases he : (dropTrailingZeros s).isEmpty
  · rw [if_pos he]
    decide
  · rw [if_neg he]
    intro hc
    rw [dropTrailingZeros, List.mem_reverse] at hc
    exact h (List.mem_reverse.mp (mem_of_mem_dropWhile hc))

theorem head_not_minus_of_digits {t : List Char} (h : allDigits t = true) :
    ¬t.head? = some '-' := by
  intro hc
  rcases t with _ | ⟨c, r⟩
  · simp at hc
  · simp only [List.head?_cons, Option.some_inj] at hc
    subst hc
    rw [allDigits_iff] at h
    exact absurd (h '-' (List.mem_cons_self _ _)) (by decide)

theorem isCanonicalB_construct2 {x y : List Char}
    (hx : allDigits x = true) (hy : allDigits y = true)
    (hxd : '.' ∉ x) (hyd : '.' ∉ y) :
    isCanonicalB (BigNum.construct2 x y).toString = true := by
  have hsplit : splitOnDot (stripLeadingZeros x ++ '.' :: stripTrailingZeros y) =
      [stripLeadingZeros x, stripTrailingZeros y] := by
    rw [splitOnDot_append_dot _ (stripLeadingZeros_no_dot hxd),
      splitOnDot_no_dot (stripTrailingZeros_no_dot hyd)]
  show isCanonicalB (stripLeadingZeros x ++ '.' :: stripTrailingZeros y) = true
  rw [isCanonicalB, hsplit]
  simp only []
  rw [if_neg (head_not_minus_of_digits (stripLeadingZeros_digits hx))]
  have c1 := stripLeadingZeros_digits hx
  have c2 := stripLeadingZeros_ne_nil x
  have c4 := stripTrailingZeros_digits hy
  have c5 := stripTrailingZeros_ne_nil y
  rcases stripLeadingZeros_canonical x with c3 | c3 <;>
    rcases stripTrailingZeros_canonical y with c6 | c6 <;>
      simp [c1, c2, c3, c4, c5, c6] <;> decide

theorem val_construct2_lit {x y : List Char} (hx : allDigits x = true)
    (hy : allDigits y = true) :
    (BigNum.construct2 x y).val = (parseDigits (x ++ y) : ℚ) / 10 ^ y.length := by
  rw [BigNum.val_construct2 x y (signedDigits_of_digits hx) hy]
  have : allDigits (x ++ y) = true := by
    rw [allDigits_iff] at hx hy ⊢
    intro c hc
    rcases List.mem_append.mp hc with hc | hc
    · exact hx c hc
    · exact hy c hc
  rw [parseBigInt_of_digits this]

/-- C4 amended.  For every valid unsigned literal (digits, at most one
point), the constructed number's `toString` is in canonical form and the
denoted value is preserved.  (Signed literals escape the leading-zero
strip, see the counterexample.) -/
theorem BigNum.create_toString_canonical (s : List Char) (a : BigNum)
    (hlit : unsignedLiteral s = true) (hmk : BigNum.mk' s = .ok a) :
    isCanonicalB a.toString = true ∧ a.val = litValQ s := by
  simp only [unsignedLiteral, Bool.and_eq_true, decide_eq_true_eq] at hlit
  obtain ⟨hall, hcount⟩ := hlit
  by_cases hdot : '.' ∈ s
  · rcases hdw : s.dropWhile (fun c => ¬c = '.') with _ | ⟨c, y⟩
    · exfalso
      have hno : ∀ z ∈ s, ¬z = '.' := by
        intro z hz
        have := List.dropWhile_eq_nil_iff.mp hdw z hz
        simpa using this
      exact hno '.' hdot rfl
    · have hc : c = '.' := by
        have := dropWhile_head_false hdw
        simpa using this
      subst hc
      set x := s.takeWhile (fun c => ¬c = '.') with hxdef
      have hs : x ++ '.' :: y = s := by
        rw [hxdef, ← hdw]
        exact List.takeWhile_append_dropWhile _ s
      have hxdot : '.' ∉ x := by
        intro hm
        have := List.mem_takeWhile_imp hm
        simp at this
      have hydot : '.' ∉ y := by
        intro hm
        have h1 : s.count '.' = x.count '.' + ('.' :: y).count '.' := by
          rw [← hs, List.count_append]
        have h2 : x.count '.' = 0 := List.count_eq_zero.mpr hxdot
        have h3 : ('.' :: y).count '.' = y.count '.' + 1 := by
          simp [List.count_cons]
        have h4 : y.count '.' ≠ 0 := fun h0 => (List.count_eq_zero.mp h0) hm
        omega
      have hx_dig : allDigits x = true := by
        rw [allDigits_iff]
        intro d hd
        have hds : d ∈ s := by
          rw [← hs]
          exact List.mem_append.mpr (Or.inl hd)
        rcases Bool.or_eq_true _ _ |>.mp (List.all_eq_true.mp hall d hds)
          with h | h
        · exact h
        · exfalso
          exact hxdot ((decide_eq_true_eq.mp h) ▸ hd)
      have hy_dig : allDigits y = true := by
        rw [allDigits_iff]
        intro d hd
        have hds : d ∈ s := by
          rw [← hs]
          exact List.mem_append.mpr (Or.inr (List.mem_cons_of_mem _ hd))
        rcases Bool.or_eq_true _ _ |>.mp (List.all_eq_true.mp hall d hds)
          with h | h
        · exact h
        · exfalso
          exact hydot ((decide_eq_true_eq.mp h) ▸ hd)
      have hsplitS : splitOnDot s = [x, y] := by
        rw [← hs, splitOnDot_append_dot _ hxdot, splitOnDot_no_dot hydot]
      rw [BigNum.mk', hsplitS] at hmk
      simp only [Except.ok.injEq] at hmk
      subst hmk
      refine ⟨isCanonicalB_construct2 hx_dig hy_dig hxdot hydot, ?_⟩
      rw [val_construct2_lit hx_dig hy_dig, litValQ, hsplitS]
  · have hsplitS : splitOnDot s = [s] := splitOnDot_no_dot hdot
    have hs_dig : allDigits s = true := by
      rw [allDigits_iff]
      intro d hd
      rcases Bool.or_eq_true _ _ |>.mp (List.all_eq_true.mp hall d hd)
        with h | h
      · exact h
      · exfalso
        exact hdot ((decide_eq_true_eq.mp h) ▸ hd)
    rw [BigNum.mk', hsplitS] at hmk
    simp only [Except.ok.injEq] at hmk
    have ha : a = BigNum.construct2 s [] := by
      rw [← hmk]
      rfl
    subst ha
    refine ⟨isCanonicalB_construct2 hs_dig (by decide) hdot (by decide), ?_⟩
    rw [val_construct2_lit hs_dig (by decide), litValQ, hsplitS]
    simp

/-- C4 witness: the literal `"0100.230"` normalizes to the canonical
`"100.23"` with its value intact. -/
theorem create_toString_canonical_witness :
    isCanonicalB (BigNum.toString ⟨['1', '0', '0'], ['2', '3']⟩) = true ∧
    BigNum.val ⟨['1', '0', '0'], ['2', '3']⟩ = litValQ "0100.230".toList := by
  have h := BigNum.create_toString_canonical "0100.230".toList
    ⟨['1', '0', '0'], ['2', '3']⟩ (by decide) (by decide)
  exact h

/-! ### Claim C7: format errors of the literal validator -/

/-- The defect predicate of claim C7: more than one decimal point, more
than one exponent marker, or a character outside an optional leading sign
that is neither a digit nor one of the two markers. -/
def specDefect (s : List Char) : Bool :=
  let body := if s.head? = some '+' ∨ s.head? = some '-' then s.tail else s
  decide (1 < s.count '.') || decide (1 < s.count 'e') ||
    !(body.all fun c => isDigitCh c || c = '.' || c = 'e')

/-- A possibly empty digit run after an optional leading `'+'` or `'-'`. -/
def signedAllDigits : List Char → Bool
  | [] => true
  | c :: r => if c = '+' ∨ c = '-' then allDigits r else allDigits (c :: r)

/-- A possibly empty digit run after an optional leading `'+'`. -/
def plusAllDigits : List Char → Bool
  | [] => true
  | c :: r => if c = '+' then allDigits r else allDigits (c :: r)

/-- The mantissa discipline actually enforced: at most one point, a
sign-prefixed digit run before it and a `'+'`-prefixed digit run after
it. -/
def mantissaOk (M : List Char) : Bool :=
  decide (M.count '.' ≤ 1) &&
    signedAllDigits (M.takeWhile fun c => ¬c = '.') &&
    plusAllDigits ((M.dropWhile fun c => ¬c = '.').tail)

/-- The amended acceptance predicate: decompose at the first `'e'` (when
one occurs); the part before it must satisfy the mantissa discipline and
the part after it must be a sign-prefixed digit run (so any further `'.'`
or `'e'` there is rejected). -/
def specValidAmended (s : List Char) : Bool :=
  if 'e' ∈ s then
    mantissaOk (s.takeWhile fun c => ¬c = 'e') &&
      signedAllDigits ((s.dropWhile fun c => ¬c = 'e').tail)
  else mantissaOk s

theorem isInteger_eq_signed (t : List Char) : isInteger t = signedAllDigits t := by
  cases t with
  | nil => rfl
  | cons c r =>
    by_cases hc : c = '+' ∨ c = '-' <;>
      simp [isInteger, signedAllDigits, allDigits, hc]

theorem isInteger_true_eq_plus (t : List Char) :
    isInteger t true = plusAllDigits t := by
  cases t with
  | nil => rfl
  | cons c r =>
    by_cases hc : c = '+' <;> simp [isInteger, plusAllDigits, allDigits, hc]

theorem length_splitOnDot (s : List Char) :
    (splitOnDot s).length = s.count '.' + 1 := by
  induction s with
  | nil => rfl
  | cons c t ih =>
    by_cases hc : c = '.'
    · subst hc
      have h1 : splitOnDot ('.' :: t) = [] :: splitOnDot t := by
        simp [splitOnDot]
      rw [h1]
      simp [List.count_cons, ih]
    · rcases hsp : splitOnDot t with _ | ⟨h, r⟩
      · rw [hsp] at ih
        simp at ih
      · have h1 : splitOnDot (c :: t) = (c :: h) :: r := by
          simp [splitOnDot, hc, hsp]
        rw [h1, List.count_cons]
        rw [hsp] at ih
        simp [hc] at ih ⊢
        omega

theorem split_at_first {a : Char} {s : List Char} (h : a ∈ s) :
    s.takeWhile (fun c => ¬c = a) ++ a :: (s.dropWhile fun c => ¬c = a).tail = s := by
  rcases hdw : s.dropWhile (fun c => ¬c = a) with _ | ⟨c, y⟩
  · exfalso
    have := List.dropWhile_eq_nil_iff.mp hdw a h
    simp at this
  · have hc : c = a := by
      have := dropWhile_head_false hdw
      simpa using this
    have h2 : s.takeWhile (fun c => ¬c = a) ++ s.dropWhile (fun c => ¬c = a) = s :=
      List.takeWhile_append_dropWhile _ s
    rw [hc] at hdw
    rw [hdw] at h2
    exact h2

theorem not_mem_takeWhile_first (a : Char) (s : List Char) :
    a ∉ s.takeWhile (fun c => ¬c = a) := by
  intro hm
  have := List.mem_takeWhile_imp hm
  simp at this

theorem takeWhile_of_not_mem {a : Char} {s : List Char} (h : a ∉ s) :
    s.takeWhile (fun c => ¬c = a) = s := by
  induction s with
  | nil => rfl
  | cons c t ih =>
    simp only [List.mem_cons, not_or] at h
    simp [List.takeWhile_cons, Ne.symm h.1, ih h.2]
    intro x hx hxa
    exact h.2 (hxa ▸ hx)

theorem dropWhile_of_not_mem {a : Char} {s : List Char} (h : a ∉ s) :
    s.dropWhile (fun c => ¬c = a) = [] := by
  apply List.dropWhile_eq_nil_iff.mpr
  intro x hx
  simp
  intro hxa
  exact h (hxa ▸ hx)

theorem isDecimal_eq (t : List Char) : isDecimal t = mantissaOk t := by
  by_cases hd : '.' ∈ t
  · by_cases h1 : t.count '.' ≤ 1
    · have hsd := split_at_first hd
      have hnx : '.' ∉ t.takeWhile (fun c => ¬c = '.') :=
        not_mem_takeWhile_first '.' t
      set x := t.takeWhile (fun c => ¬c = '.') with hx
      set y := (t.dropWhile fun c => ¬c = '.').tail with hy
      have hny : '.' ∉ y := by
        intro hm
        have hcnt : t.count '.' = x.count '.' + ('.' :: y).count '.' := by
          rw [← hsd, List.count_append]
        have hcx : x.count '.' = 0 := List.count_eq_zero.mpr hnx
        have hcy : y.count '.' ≠ 0 := fun h0 => (List.count_eq_zero.mp h0) hm
        have hcc : ('.' :: y).count '.' = y.count '.' + 1 := by
          simp [List.count_cons]
        omega
      have hsp : splitOnDot t = [x, y] := by
        rw [← hsd, splitOnDot_append_dot _ hnx, splitOnDot_no_dot hny]
      rw [isDecimal, hsp]
      simp only []
      rw [isInteger_eq_signed, isInteger_true_eq_plus, mantissaOk, ← hx, ← hy]
      simp [h1]
    · have hfalse : isDecimal t = false := by
        have hlen : 3 ≤ (splitOnDot t).length := by
          rw [length_splitOnDot]
          omega
        rw [isDecimal]
        rcases hsp : splitOnDot t with _ | ⟨a, _ | ⟨b, _ | ⟨c, l⟩⟩⟩
        · rfl
        · exfalso
          rw [hsp] at hlen
          simp at hlen
        · exfalso
          rw [hsp] at hlen
          simp at hlen
        · rfl
      rw [hfalse]
      simp [mantissaOk, h1]
  · have h0 : t.count '.' = 0 := List.count_eq_zero.mpr hd
    have hsp := splitOnDot_no_dot hd
    rw [isDecimal, hsp]
    simp only []
    rw [isInteger_eq_signed, mantissaOk, takeWhile_of_not_mem hd,
      dropWhile_of_not_mem hd, h0]
    simp [plusAllDigits]

/-- C7 counterexample.  `"1.+5"` has a sign character that is neither
leading nor a digit (a defect under the claim) yet the validator accepts
it, because `isInteger(fraction, true)` strips a leading `'+'` of the
fractional part; conversely `"1e2.5"` is free of the claim's defects (one
point, one marker, digits elsewhere) yet the validator rejects it, since
no point may follow the exponent marker. -/
theorem parseNum_defect_mismatch :
    (specDefect "1.+5".toList = true ∧ isValid "1.+5".toList = true) ∧
    (specDefect "1e2.5".toList = false ∧ isValid "1e2.5".toList = false) := by
  constructor
  · exact ⟨by decide, by decide⟩
  · exact ⟨by decide, by decide⟩

/-- C7 amended.  The validator accepts a string exactly when, after
splitting at the first `'e'` (when present), the mantissa carries at most
one point with a `'+'`- or `'-'`-prefixed digit run before it and a
`'+'`-prefixed digit run after it, and the exponent is a `'+'`- or
`'-'`-prefixed digit run; every digit run may be empty.  In particular a
sign directly after the point or the marker is legal and a point after
the marker is not. -/
theorem parseNum_format_characterization (s : List Char) :
    isValid s = specValidAmended s := by
  by_cases he : 'e' ∈ s
  · rw [isValid, if_pos he, specValidAmended, if_pos he,
      isDecimal_eq, isInteger_eq_signed]
  · rw [isValid, if_neg he, specValidAmended, if_neg he, isDecimal_eq]

/-! ### Claim C8: domain and value of the inverse hyperbolic tangent -/

/-- Modelled from the spec: the domain-error class raised for arguments
outside a function's real domain. -/
inductive TransError where
  | undefinedValue : TransError
deriving DecidableEq

/-- Modelled from the spec: the logarithm primitive's contract — it fails
on non-positive input with a domain error and is otherwise an abstract
real logarithm `L`, taken here over exact rationals. -/
def lnE (L : ℚ → ℚ) (x : ℚ) : Except TransError ℚ :=
  if x ≤ 0 then .error .undefinedValue else .ok (L x)

/-- Modelled from the spec: `TrigHyperbolic.atanh` over exact rationals
with the context rounding taken as the identity.  Arguments of absolute
value above one fail at the guard, negative arguments recurse on the
negation, zero returns zero, and otherwise the value is
`½ (ln (1+x) − ln (1−x))`. -/
def atanhE (L : ℚ → ℚ) (x : ℚ) : Except TransError ℚ :=
  if 1 < |x| then .error .undefinedValue
  else if x < 0 then (atanhE L (-x)).map Neg.neg
  else if x = 0 then .ok 0
  else do
    let a ← lnE L (1 + x)
    let b ← lnE L (1 - x)
    pure (1 / 2 * (a - b))
termination_by (if x < 0 then 1 else 0)
decreasing_by
  have h2 : x < 0 := by assumption
  have h3 : ¬(-x < 0) := by linarith
  simp [h2, h3]

theorem atanhE_big (L : ℚ → ℚ) (x : ℚ) (h : 1 < |x|) :
    atanhE L x = .error .undefinedValue := by
  rw [atanhE, if_pos h]

theorem atanhE_pos (L : ℚ → ℚ) (x : ℚ) (h0 : 0 < x) (h1 : x < 1) :
    atanhE L x = .ok (1 / 2 * (L (1 + x) - L (1 - x))) := by
  rw [atanhE]
  rw [if_neg (show ¬1 < |x| by rw [abs_of_pos h0]; linarith),
    if_neg (show ¬x < 0 by linarith),
    if_neg (show ¬x = 0 by linarith)]
  rw [lnE, if_neg (show ¬(1 + x ≤ 0) by linarith),
    lnE, if_neg (show ¬(1 - x ≤ 0) by linarith)]
  rfl

theorem atanhE_one (L : ℚ → ℚ) : atanhE L 1 = .error .undefinedValue := by
  rw [atanhE]
  rw [if_neg (show ¬(1:ℚ) < |(1:ℚ)| by simp),
    if_neg (show ¬(1:ℚ) < 0 by norm_num),
    if_neg (show ¬(1:ℚ) = 0 by norm_num)]
  rw [lnE, if_neg (show ¬((1:ℚ) + 1 ≤ 0) by norm_num)]
  rw [lnE, if_pos (show (1:ℚ) - 1 ≤ 0 by norm_num)]
  rfl

theorem atanhE_neg_one (L : ℚ → ℚ) : atanhE L (-1) = .error .undefinedValue := by
  rw [atanhE]
  rw [if_neg (show ¬(1:ℚ) < |(-1:ℚ)| by simp),
    if_pos (show (-1:ℚ) < 0 by norm_num)]
  rw [show -(-1:ℚ) = 1 by norm_num, atanhE_one]
  rfl

/-- C8.  Under the spec's contract for the logarithm primitive (it turns
products of positives into sums and fails on non-positive input), atanh
fails with the domain error exactly on arguments of absolute value at
least one — above one at the guard, at one inside the logarithm — and on
the open unit interval it returns `½ ln ((1+x)/(1−x))`. -/
theorem atanh_domain_value (L : ℚ → ℚ)
    (Hmul : ∀ a b : ℚ, 0 < a → 0 < b → L (a * b) = L a + L b) (x : ℚ) :
    (1 ≤ |x| → atanhE L x = .error .undefinedValue) ∧
    (|x| < 1 → atanhE L x = .ok (1 / 2 * L ((1 + x) / (1 - x)))) := by
  have hL1 : L 1 = 0 := by
    have h := Hmul 1 1 one_pos one_pos
    simp at h
    linarith
  have hinv : ∀ a : ℚ, 0 < a → L a⁻¹ = -L a := by
    intro a ha
    have h := Hmul a a⁻¹ ha (by positivity)
    rw [mul_inv_cancel₀ (ne_of_gt ha), hL1] at h
    linarith
  have hdiv : ∀ a b : ℚ, 0 < a → 0 < b → L (a / b) = L a - L b := by
    intro a b ha hb
    rw [div_eq_mul_inv, Hmul a b⁻¹ ha (by positivity), hinv b hb]
    ring
  constructor
  · intro hx
    rcases lt_or_eq_of_le hx with h | h
    · exact atanhE_big L x h
    · rcases (abs_eq (by norm_num : (0:ℚ) ≤ 1)).mp h.symm with h1 | h1 <;>
        subst h1
      · exact atanhE_one L
      · exact atanhE_neg_one L
  · intro hx
    have hx1 : x < 1 := lt_of_le_of_lt (le_abs_self x) hx
    have hx2 : -1 < x := by
      have := neg_abs_le x
      linarith
    rcases lt_trichotomy x 0 with hneg | hzero | hpos
    · rw [atanhE]
      rw [if_neg (not_lt.mpr (le_of_lt hx)), if_pos hneg]
      rw [atanhE_pos L (-x) (by linarith) (by linarith)]
      simp only [Except.map, Except.ok.injEq]
      rw [show (1:ℚ) + -x = 1 - x by ring, show (1:ℚ) - -x = 1 + x by ring,
        hdiv (1 + x) (1 - x) (by linarith) (by linarith)]
      ring
    · subst hzero
      rw [atanhE]
      rw [if_neg (show ¬(1:ℚ) < |(0:ℚ)| by simp),
        if_neg (show ¬(0:ℚ) < 0 by norm_num), if_pos rfl]
      simp only [Except.ok.injEq]
      norm_num [hL1]
    · rw [atanhE_pos L x hpos hx1]
      simp only [Except.ok.injEq]
      rw [hdiv (1 + x) (1 - x) (by linarith) (by linarith)]

/-- C8 witness: the trivial logarithm satisfies the contract and at
`x = 1/2` the value clause produces `½ · 0`. -/
theorem atanh_domain_value_witness : atanhE (fun _ => 0) (1/2) = .ok 0 := by
  have h := (atanh_domain_value (fun _ => 0) (fun a b ha hb => by simp)
    (1/2)).2
    (by rw [show |(1/2 : ℚ)| = 1/2 from abs_of_pos (by norm_num)]; norm_num)
  simpa using h

/-! ### Claim C9: squares of imaginary basis elements -/

/-- Modelled from the spec: the hypercomplex tower — a real scalar at
dimension `2^0`, and at each doubling an ordered pair of the two halves,
over exact rationals. -/
inductive CD : ℕ → Type where
  | r : ℚ → CD 0
  | p : {n : ℕ} → CD n → CD n → CD (n + 1)

/-- Modelled from the spec: the zero tuple. -/
def CD.zero : (n : ℕ) → CD n
  | 0 => .r 0
  | n + 1 => .p (CD.zero n) (CD.zero n)

/-- Modelled from the spec: componentwise negation. -/
def CD.neg : {n : ℕ} → CD n → CD n
  | _, .r x => .r (-x)
  | _, .p a b => .p a.neg b.neg

/-- Modelled from the spec: conjugation keeps component 0 and negates the
rest, so it recurses on the upper half and negates the lower half. -/
def CD.conj : {n : ℕ} → CD n → CD n
  | _, .r x => .r x
  | _, .p a b => .p a.conj b.neg

/-- Modelled from the spec: componentwise addition. -/
def CD.add : {n : ℕ} → CD n → CD n → CD n
  | _, .r x, .r y => .r (x + y)
  | _, .p a b, .p c d => .p (a.add c) (b.add d)

/-- Modelled from the spec: componentwise subtraction. -/
def CD.sub : {n : ℕ} → CD n → CD n → CD n
  | _, .r x, .r y => .r (x - y)
  | _, .p a b, .p c d => .p (a.sub c) (b.sub d)

/-- Modelled from the spec: the Cayley–Dickson recursive product, plain
multiplication at the base and
`(a1, a2)·(b1, b2) = (a1·b1 − conj(b2)·a2, b2·a1 + a2·conj(b1))` at each
doubling. -/
def CD.mul : {n : ℕ} → CD n → CD n → CD n
  | _, .r x, .r y => .r (x * y)
  | _, .p a1 a2, .p b1 b2 =>
    .p ((a1.mul b1).sub ((b2.conj).mul a2)) ((b2.mul a1).add (a2.mul b1.conj))

/-- Modelled from the spec: the basis tuple with `1` in slot `i` and `0`
elsewhere, located by halving on the index. -/
def CD.basis : (n : ℕ) → ℕ → CD n
  | 0, _ => .r 1
  | n + 1, i =>
    if i < 2 ^ n then .p (CD.basis n i) (CD.zero n)
    else .p (CD.zero n) (CD.basis n (i - 2 ^ n))

theorem CD.neg_zero' (n : ℕ) : (CD.zero n).neg = CD.zero n := by
  induction n with
  | zero => simp [CD.zero, CD.neg]
  | succ m ih => simp [CD.zero, CD.neg, ih]

theorem CD.conj_zero (n : ℕ) : (CD.zero n).conj = CD.zero n := by
  induction n with
  | zero => rfl
  | succ m ih => simp [CD.zero, CD.conj, ih, CD.neg_zero']

theorem CD.neg_neg' {n : ℕ} (x : CD n) : x.neg.neg = x := by
  induction x with
  | r a => simp [CD.neg]
  | p a b iha ihb => simp [CD.neg, iha, ihb]

theorem CD.conj_neg : ∀ {n : ℕ} (x : CD n), (x.neg).conj = (x.conj).neg := by
  intro n x
  induction x with
  | r a => simp [CD.neg, CD.conj]
  | p a b iha ihb => simp [CD.neg, CD.conj, iha, ihb]

theorem CD.neg_add_neg : ∀ {n : ℕ} (x y : CD n),
    (x.neg).add (y.neg) = (x.add y).neg := by
  intro n
  induction n with
  | zero =>
    intro x y
    cases x with
    | r a =>
      cases y with
      | r b =>
        simp only [CD.neg, CD.add, CD.r.injEq]
        ring
  | succ m ih =>
    intro x y
    cases x with
    | p x1 x2 =>
      cases y with
      | p y1 y2 => simp [CD.neg, CD.add, ih]

theorem CD.neg_sub_neg : ∀ {n : ℕ} (x y : CD n),
    (x.neg).sub (y.neg) = (x.sub y).neg := by
  intro n
  induction n with
  | zero =>
    intro x y
    cases x with
    | r a =>
      cases y with
      | r b =>
        simp only [CD.neg, CD.sub, CD.r.injEq]
        ring
  | succ m ih =>
    intro x y
    cases x with
    | p x1 x2 =>
      cases y with
      | p y1 y2 => simp [CD.neg, CD.sub, ih]

theorem CD.add_zero' {n : ℕ} (x : CD n) : x.add (CD.zero n) = x := by
  induction x with
  | r a => simp [CD.zero, CD.add]
  | p a b iha ihb => simp [CD.zero, CD.add, iha, ihb]

theorem CD.zero_add' {n : ℕ} (x : CD n) : (CD.zero n).add x = x := by
  induction x with
  | r a => simp [CD.zero, CD.add]
  | p a b iha ihb => simp [CD.zero, CD.add, iha, ihb]

theorem CD.sub_zero' {n : ℕ} (x : CD n) : x.sub (CD.zero n) = x := by
  induction x with
  | r a => simp [CD.zero, CD.sub]
  | p a b iha ihb => simp [CD.zero, CD.sub, iha, ihb]

theorem CD.zero_sub' {n : ℕ} (x : CD n) : (CD.zero n).sub x = x.neg := by
  induction x with
  | r a => simp [CD.zero, CD.sub, CD.neg]
  | p a b iha ihb => simp [CD.zero, CD.sub, CD.neg, iha, ihb]

theorem CD.mul_zero_both : ∀ (n : ℕ) (a : CD n),
    (CD.zero n).mul a = CD.zero n ∧ a.mul (CD.zero n) = CD.zero n := by
  intro n
  induction n with
  | zero =>
    intro a
    cases a with
    | r x => constructor <;> simp [CD.zero, CD.mul]
  | succ m ih =>
    intro a
    cases a with
    | p a1 a2 =>
      have hz1 := fun b => (ih b).1
      have hz2 := fun b => (ih b).2
      constructor <;>
        simp [CD.zero, CD.mul, CD.conj_zero, hz1, hz2,
          CD.sub_zero', CD.zero_sub', CD.zero_add', CD.add_zero', CD.neg_zero']

theorem CD.neg_mul_both : ∀ (n : ℕ) (a b : CD n),
    (a.neg).mul b = (a.mul b).neg ∧ a.mul (b.neg) = (a.mul b).neg := by
  intro n
  induction n with
  | zero =>
    intro a b
    cases a with
    | r x =>
      cases b with
      | r y =>
        constructor <;>
          (simp only [CD.neg, CD.mul, CD.r.injEq]; ring)
  | succ m ih =>
    intro a b
    cases a with
    | p a1 a2 =>
      cases b with
      | p b1 b2 =>
        constructor
        · simp [CD.neg, CD.mul, (ih a1 b1).1, (ih (b2.conj) a2).2,
            (ih b2 a1).2, (ih a2 (b1.conj)).1, CD.neg_sub_neg, CD.neg_add_neg]
        · simp [CD.neg, CD.mul, CD.conj_neg, (ih a1 b1).2, (ih (b2.conj) a2).1,
            (ih b2 a1).1, (ih a2 (b1.conj)).2, CD.neg_sub_neg, CD.neg_add_neg]

theorem CD.basis_zero_conj (n : ℕ) : (CD.basis n 0).conj = CD.basis n 0 := by
  induction n with
  | zero => rfl
  | succ m ih =>
    have h0 : (0:ℕ) < 2 ^ m := pow_pos (by norm_num) m
    simp [CD.basis, h0, CD.conj, ih, CD.neg_zero']

theorem CD.basis_zero_mul (n : ℕ) :
    (CD.basis n 0).mul (CD.basis n 0) = CD.basis n 0 := by
  induction n with
  | zero => simp [CD.basis, CD.mul]
  | succ m ih =>
    have h0 : (0:ℕ) < 2 ^ m := pow_pos (by norm_num) m
    have hz1 := fun b => (CD.mul_zero_both m b).1
    have hz2 := fun b => (CD.mul_zero_both m b).2
    simp [CD.basis, h0, CD.mul, CD.conj_zero, hz1, hz2, ih,
      CD.sub_zero', CD.zero_add', CD.add_zero']

theorem CD.conj_basis (m : ℕ) : ∀ j, 1 ≤ j → j < 2 ^ m →
    (CD.basis m j).conj = (CD.basis m j).neg := by
  induction m with
  | zero =>
    intro j h1 h2
    norm_num at h2
    omega
  | succ m ih =>
    intro j h1 h2
    by_cases hj : j < 2 ^ m
    · simp [CD.basis, hj, CD.conj, CD.neg, ih j h1 hj]
    · simp [CD.basis, hj, CD.conj, CD.neg, CD.conj_zero, CD.neg_zero']

/-- C9.  Modelled from the spec: in every dimension `2^n` the basis
element with `1` in an imaginary slot `i ≥ 1` and `0` elsewhere squares,
under the Cayley–Dickson recursive product, to the negation of the real
unit. -/
theorem CD.basis_sq_neg_one : ∀ (n i : ℕ), 1 ≤ i → i < 2 ^ n →
    (CD.basis n i).mul (CD.basis n i) = (CD.basis n 0).neg := by
  intro n
  induction n with
  | zero =>
    intro i h1 h2
    norm_num at h2
    omega
  | succ m ih =>
    intro i h1 h2
    have hQ : ∀ j, j < 2 ^ m →
        ((CD.basis m j).conj).mul (CD.basis m j) = CD.basis m 0 := by
      intro j hj
      rcases Nat.eq_zero_or_pos j with hj0 | hj1
      · subst hj0
        rw [CD.basis_zero_conj, CD.basis_zero_mul]
      · rw [CD.conj_basis m j hj1 hj, (CD.neg_mul_both m _ _).1, ih j hj1 hj,
          CD.neg_neg']
    have h0 : (0:ℕ) < 2 ^ m := pow_pos (by norm_num) m
    have hz1 := fun b => (CD.mul_zero_both m b).1
    have hz2 := fun b => (CD.mul_zero_both m b).2
    by_cases hi : i < 2 ^ m
    · have he := ih i h1 hi
      simp [CD.basis, hi, h0, CD.mul, CD.neg, CD.conj_zero, hz1, hz2, he,
        CD.sub_zero', CD.zero_add', CD.add_zero', CD.neg_zero']
    · have hq := hQ (i - 2 ^ m) (by
        have hp : 2 ^ (m + 1) = 2 ^ m + 2 ^ m := by ring
        omega)
      simp [CD.basis, hi, h0, CD.mul, CD.neg, CD.conj_zero, hz1, hz2, hq,
        CD.zero_sub', CD.zero_add', CD.add_zero', CD.neg_zero']

/-- C9 witness: in dimension `8` the basis element of slot `5` squares to
the negated real unit. -/
theorem basis_sq_neg_one_witness :
    1 ≤ 5 ∧ 5 < 2 ^ 3 ∧
      (CD.basis 3 5).mul (CD.basis 3 5) = (CD.basis 3 0).neg :=
  ⟨by decide, by decide, CD.basis_sq_neg_one 3 5 (by decide) (by decide)⟩
